import Mathlib

/-!
# A doubly linked list with run-time type checking (`LinkedList.go`)

Shallow embedding of the Go package `LinkedList` and a verification of its
structural invariants and of the functional behaviour of its operations.

* Go pointers `*Node` are addresses into an explicit heap; `nil` is `none`.
  `&Node{...}` allocates at the first unused address.
* `interface{}` keys are values of `Value`; `reflect.TypeOf` is `typeOf`.
* `uint` is 64 bits wide: `++`, `--` and `-` wrap modulo `2 ^ 64`.
* Every method returns an `Outcome`: the Go result pair together with the
  state it leaves, or a run-time panic, or exhaustion of the fuel that bounds
  the `for current != nil` loops.
* `fmt.Println(current)` in `InsertAt` and `RemoveAt` only writes to standard
  output and is not part of the state.
-/

namespace GoList

/-! ## Keys: dynamically typed values -/

/-- Dynamic types of the values a key can hold. `float64`, `box` (the struct
type `struct{ v interface{} }`) and the others are comparable types; `intSlice`
(`[]int`) stands for the types on which Go's `==` is not defined. -/
inductive GoType
  | int
  | string
  | bool
  | float64
  | intSlice
  | box
  deriving DecidableEq, Repr

/-- What an `interface{}` can hold: the nil interface, or a value of one of the
dynamic types of `GoType`. Of the `float64` values only NaN is modelled, the
one that is not equal to itself; `boxed v` is the struct of type `box` whose
interface field holds `v`. -/
inductive Value
  | nil
  | int (n : Int)
  | str (s : String)
  | bool (b : Bool)
  | nan
  | ints (xs : List Int)
  | boxed (v : Value)
  deriving DecidableEq, Repr

/-- The function `reflect.TypeOf`: the dynamic type, and the nil `reflect.Type`
for the nil interface. -/
def typeOf : Value → Option GoType
  | .nil => none
  | .int _ => some .int
  | .str _ => some .string
  | .bool _ => some .bool
  | .nan => some .float64
  | .ints _ => some .intSlice
  | .boxed _ => some .box

/-- Whether the type is comparable, that is whether Go's `==` is defined on
values of the type. -/
def comparable : GoType → Bool
  | .intSlice => false
  | _ => true

/-- Go's `a == b` on two interface values; `none` is the run-time panic. The
result is false when the dynamic types differ and a panic when they agree and
are not comparable. On a comparable type the values are compared: integers,
strings and booleans by value, NaN is unequal to NaN, and two structs of type
`box` by `==` on the interface values they hold, which may panic in turn. -/
def ifaceEq : Value → Value → Option Bool
  | .nil, b => some (decide (b = .nil))
  | .int m, b =>
    match b with
    | .int n => some (decide (m = n))
    | _ => some false
  | .str s, b =>
    match b with
    | .str s' => some (decide (s = s'))
    | _ => some false
  | .bool x, b =>
    match b with
    | .bool y => some (decide (x = y))
    | _ => some false
  | .nan, _ => some false
  | .ints _, b =>
    match b with
    | .ints _ => none
    | _ => some false
  | .boxed u, b =>
    match b with
    | .boxed v => ifaceEq u v
    | _ => some false

/-- The keys on which `==` is plain value equality: the nil interface,
integers, strings and booleans. -/
def isPlain : Value → Bool
  | .nil => true
  | .int _ => true
  | .str _ => true
  | .bool _ => true
  | _ => false

/-! ## Data model -/

/-- The struct `Node`. A pointer `*Node` is an `Option Nat`: `none` is nil and
`some a` is the address `a` of a heap cell. -/
structure Node where
  prev : Option Nat
  next : Option Nat
  key : Value
  keyType : Option GoType
  deriving DecidableEq, Repr

/-- The struct `LinkedList`. -/
structure LinkedList where
  head : Option Nat
  tail : Option Nat
  size : Nat
  keyType : Option GoType
  deriving DecidableEq, Repr

/-- The heap of nodes: the cell at address `a` is the `a`-th entry. -/
abbrev Heap := List Node

/-- A program state: the heap and the list value a method is called on. -/
structure State where
  heap : Heap
  list : LinkedList
  deriving DecidableEq, Repr

/-- The errors the package builds with `errors.New` and `fmt.Errorf`, one
constructor per message. -/
inductive GoError
  | expectedKeyType (t : GoType)
  | indexOutOfRangeSize (index size : Nat)
  | listIsEmpty
  | unmatchedTypes (got expected : Option GoType)
  | keyNotFound
  | indexOutOfRange
  | expectedType (t : GoType)
  deriving DecidableEq, Repr

/-- How a method call ends: it returns `(val, err)` leaving state `st`, it
panics, or a `for current != nil` loop exceeds its fuel. -/
inductive Outcome (α : Type)
  | ret (val : α) (err : Option GoError) (st : State)
  | panic
  | timeout
  deriving DecidableEq, Repr

/-! ## Machine arithmetic on `uint` -/

/-- Number of values of a `uint`. -/
def uintMod : Nat := 2 ^ 64

/-- Wrapping `uint` addition. -/
def uadd (a b : Nat) : Nat := (a + b) % uintMod

/-- Wrapping `uint` subtraction: the difference reduced modulo `2 ^ 64`. -/
def usub (a b : Nat) : Nat := (((a : Int) - (b : Int)) % (uintMod : Int)).toNat

/-! ## Pointer primitives -/

/-- Dereference of a pointer; `none` is the nil-pointer panic. -/
def deref (h : Heap) : Option Nat → Option Node
  | none => none
  | some a => h[a]?

/-- The loop `for currentIndex < n { currentIndex++; current = current.next }`;
`none` is a nil dereference. -/
def stepsNext (h : Heap) : Nat → Option Nat → Option (Option Nat)
  | 0, cur => some cur
  | n + 1, cur =>
    match deref h cur with
    | none => none
    | some nd => stepsNext h n nd.next

/-- The loop `for currentIndex < n { currentIndex++; current = current.prev }`;
`none` is a nil dereference. -/
def stepsPrev (h : Heap) : Nat → Option Nat → Option (Option Nat)
  | 0, cur => some cur
  | n + 1, cur =>
    match deref h cur with
    | none => none
    | some nd => stepsPrev h n nd.prev

/-- Number of pointer steps of the traversal used by `InsertAt`, `At` and
`RemoveAt`. -/
def traversalSteps (size index : Nat) : Nat :=
  if index < size / 2 then index else usub (usub size index) 1

/-- The traversal block of `InsertAt`, `At` and `RemoveAt`: forward from `head`
when `index < size/2`, else backward from `tail` for `size-index-1` steps. -/
def locate (st : State) (index : Nat) : Option (Option Nat) :=
  if index < st.list.size / 2 then
    stepsNext st.heap index st.list.head
  else
    stepsPrev st.heap (usub (usub st.list.size index) 1) st.list.tail

/-- Result of the linear search of `IndexOf` and `Remove`. -/
inductive Search
  | found (a : Nat) (index : Nat)
  | notFound
  | panic
  | timeout
  deriving DecidableEq, Repr

/-- The search loop `for current != nil { if current.key == t { ... };
index++; current = current.next }` of `IndexOf`, with the number of iterations
bounded by the fuel. The loop of `Remove` is the same without the counter, and
uses only the node found. -/
def scan (h : Heap) (t : Value) : Nat → Option Nat → Nat → Search
  | _, none, _ => .notFound
  | 0, some _, _ => .timeout
  | fuel + 1, some a, index =>
    match h[a]? with
    | none => .panic
    | some nd =>
      match ifaceEq nd.key t with
      | none => .panic
      | some true => .found a index
      | some false => scan h t fuel nd.next (uadd index 1)

/-- The two assignments `current.prev.next = current.next` and
`current.next.prev = current.prev` of `RemoveAt` and `Remove`; `none` is a nil
dereference. -/
def unlink (h : Heap) (c : Nat) : Option Heap :=
  match h[c]? with
  | none => none
  | some cn =>
    match cn.prev with
    | none => none
    | some p =>
      match h[p]? with
      | none => none
      | some pn =>
        let h1 := h.set p { pn with next := cn.next }
        match h1[c]? with
        | none => none
        | some cn1 =>
          match cn1.next with
          | none => none
          | some n =>
            match h1[n]? with
            | none => none
            | some nn => some (h1.set n { nn with prev := cn1.prev })

/-! ## The methods -/

/-- The function `newNode`. -/
def newNode (key : Value) : Node :=
  { prev := none, next := none, key := key, keyType := typeOf key }

/-- The factory `NewLinkedList`. -/
def NewLinkedList (key : Value) : LinkedList :=
  { head := none, tail := none, size := 0, keyType := typeOf key }

/-- The result of `return false, fmt.Errorf(fmt, l.keyType.String())`: calling
`String` on the nil `reflect.Type` panics. -/
def typeError (mk : GoType → GoError) (st : State) : Outcome Bool :=
  match st.list.keyType with
  | none => .panic
  | some t => .ret false (some (mk t)) st

/-- The method `InsertBack`. -/
def InsertBack (st : State) (key : Value) : Outcome Bool :=
  if typeOf key ≠ st.list.keyType then
    typeError .expectedKeyType st
  else if st.list.head = none ∧ st.list.tail = none then
    let a := st.heap.length
    .ret true none
      { heap := st.heap ++ [{ prev := none, next := none, key := key, keyType := typeOf key }]
        list := { st.list with head := some a, tail := some a, size := uadd st.list.size 1 } }
  else
    match st.list.tail with
    | none => .panic
    | some t =>
      let a := st.heap.length
      let h1 := st.heap ++ [{ prev := some t, next := none, key := key, keyType := typeOf key }]
      match h1[t]? with
      | none => .panic
      | some tn =>
        .ret true none
          { heap := h1.set t { tn with next := some a }
            list := { st.list with tail := some a, size := uadd st.list.size 1 } }

/-- The method `InsertFront`. -/
def InsertFront (st : State) (key : Value) : Outcome Bool :=
  if typeOf key ≠ st.list.keyType then
    typeError .expectedKeyType st
  else if st.list.head = none ∧ st.list.tail = none then
    let a := st.heap.length
    .ret true none
      { heap := st.heap ++ [{ prev := none, next := none, key := key, keyType := typeOf key }]
        list := { st.list with head := some a, tail := some a, size := uadd st.list.size 1 } }
  else
    match st.list.head with
    | none => .panic
    | some hd =>
      let a := st.heap.length
      let h1 := st.heap ++ [{ prev := none, next := some hd, key := key, keyType := typeOf key }]
      match h1[hd]? with
      | none => .panic
      | some hn =>
        .ret true none
          { heap := h1.set hd { hn with prev := some a }
            list := { st.list with head := some a, size := uadd st.list.size 1 } }

/-- The method `InsertAt`. -/
def InsertAt (st : State) (index : Nat) (key : Value) : Outcome Bool :=
  if index > st.list.size then
    .ret false (some (.indexOutOfRangeSize index st.list.size)) st
  else if typeOf key ≠ st.list.keyType then
    typeError .expectedKeyType st
  else if index = 0 then
    InsertFront st key
  else if index = st.list.size then
    InsertBack st key
  else
    match locate st index with
    | none => .panic
    | some none => .panic
    | some (some c) =>
      match st.heap[c]? with
      | none => .panic
      | some cn =>
        let a := st.heap.length
        let h1 := st.heap ++ [{ prev := cn.prev, next := some c, key := key, keyType := typeOf key }]
        match h1[c]? with
        | none => .panic
        | some cn1 =>
          match cn1.prev with
          | none => .panic
          | some p =>
            match h1[p]? with
            | none => .panic
            | some pn =>
              let h2 := h1.set p { pn with next := some a }
              match h2[c]? with
              | none => .panic
              | some cn2 =>
                .ret true none
                  { heap := h2.set c { cn2 with prev := some a }
                    list := { st.list with size := uadd st.list.size 1 } }

/-- The method `At`. -/
def At (st : State) (index : Nat) : Outcome Value :=
  if index ≥ st.list.size then
    .ret .nil (some (.indexOutOfRangeSize index st.list.size)) st
  else
    match locate st index with
    | none => .panic
    | some current =>
      match deref st.heap current with
      | none => .panic
      | some cn => .ret cn.key none st

/-- The method `IndexOf`. -/
def IndexOf (fuel : Nat) (st : State) (t : Value) : Outcome Nat :=
  if st.list.size = 0 then
    .ret 0 (some .listIsEmpty) st
  else if typeOf t ≠ st.list.keyType then
    .ret st.list.size (some (.unmatchedTypes (typeOf t) st.list.keyType)) st
  else
    match scan st.heap t fuel st.list.head 0 with
    | .found _ index => .ret index none st
    | .notFound => .ret st.list.size (some .keyNotFound) st
    | .panic => .panic
    | .timeout => .timeout

/-- The method `Size`. -/
def Size (st : State) : Nat := st.list.size

/-- The method `RemoveBack`. No assignment of the method writes a `key` field,
so `removed.key` is the key read when `removed` is taken. -/
def RemoveBack (st : State) : Outcome Value :=
  if st.list.size = 0 then
    .ret .nil (some .listIsEmpty) st
  else if st.list.size = 1 then
    match deref st.heap st.list.head with
    | none => .panic
    | some rn =>
      .ret rn.key none { st with list := { st.list with head := none, tail := none, size := 0 } }
  else
    match deref st.heap st.list.tail with
    | none => .panic
    | some rn =>
      match rn.prev with
      | none => .panic
      | some p =>
        match st.heap[p]? with
        | none => .panic
        | some pn =>
          .ret rn.key none
            { heap := st.heap.set p { pn with next := none }
              list := { st.list with tail := some p, size := usub st.list.size 1 } }

/-- The method `RemoveFront`. On the empty list the value returned beside the
error is the boolean `false`. -/
def RemoveFront (st : State) : Outcome Value :=
  if st.list.size = 0 then
    .ret (.bool false) (some .listIsEmpty) st
  else if st.list.size = 1 then
    match deref st.heap st.list.head with
    | none => .panic
    | some rn =>
      .ret rn.key none { st with list := { st.list with head := none, tail := none, size := 0 } }
  else
    match deref st.heap st.list.head with
    | none => .panic
    | some rn =>
      match rn.next with
      | none => .panic
      | some n =>
        match st.heap[n]? with
        | none => .panic
        | some nn =>
          .ret rn.key none
            { heap := st.heap.set n { nn with prev := none }
              list := { st.list with head := some n, size := usub st.list.size 1 } }

/-- The method `RemoveAt`. -/
def RemoveAt (st : State) (index : Nat) : Outcome Value :=
  if index ≥ st.list.size then
    .ret .nil (some .indexOutOfRange) st
  else if index = 0 then
    RemoveFront st
  else if index = usub st.list.size 1 then
    RemoveBack st
  else
    match locate st index with
    | none => .panic
    | some none => .panic
    | some (some c) =>
      match unlink st.heap c with
      | none => .panic
      | some h2 =>
        match h2[c]? with
        | none => .panic
        | some cn =>
          .ret cn.key none
            { heap := h2, list := { st.list with size := usub st.list.size 1 } }

/-- The tail of `Remove` after a delegated call: `return val != nil, err`. -/
def viaRemoved : Outcome Value → Outcome Bool
  | .ret val err st => .ret (decide (val ≠ Value.nil)) err st
  | .panic => .panic
  | .timeout => .timeout

/-- The method `Remove`. -/
def Remove (fuel : Nat) (st : State) (key : Value) : Outcome Bool :=
  if st.list.size = 0 then
    .ret false (some .listIsEmpty) st
  else if typeOf key ≠ st.list.keyType then
    typeError .expectedType st
  else
    match scan st.heap key fuel st.list.head 0 with
    | .panic => .panic
    | .timeout => .timeout
    | .notFound => .ret false (some .keyNotFound) st
    | .found c _ =>
      if some c = st.list.head then
        viaRemoved (RemoveFront st)
      else if some c = st.list.tail then
        viaRemoved (RemoveBack st)
      else
        match unlink st.heap c with
        | none => .panic
        | some h2 =>
          .ret true none { heap := h2, list := { st.list with size := usub st.list.size 1 } }

/-! ## Abstraction: the list a state represents -/

/-- A cell of the chain: the address of a node and the key stored in it. -/
abbrev Cell := Nat × Value

/-- The address of the last cell of a chain that is entered from `p`: `p`
itself when the chain is empty. -/
def lastAddr : Option Nat → List Cell → Option Nat
  | p, [] => p
  | _, c :: cs => lastAddr (some c.1) cs

/-- Boolean form of `seg`. -/
def segB (h : Heap) : Option Nat → Option Nat → List Cell → Option Nat → Bool
  | _, cur, [], nx => decide (cur = nx)
  | p, cur, c :: cs, nx =>
    match h[c.1]? with
    | none => false
    | some n =>
      decide (cur = some c.1) && decide (n.prev = p) && decide (n.key = c.2) &&
        segB h (some c.1) n.next cs nx

/-- A doubly linked segment: starting at pointer `cur`, the `next` links visit
exactly the cells `cs` and then reach `nx`; each node holds the key of its
cell, the `prev` link of the first node is `p` and the `prev` link of every
other node is the address of the node before it. -/
def seg (h : Heap) (p cur : Option Nat) (cs : List Cell) (nx : Option Nat) : Prop :=
  segB h p cur cs nx = true

/-- State `st` represents the chain of cells `cs`: from `head` the nodes of
`cs` are doubly linked up to nil with `head.prev` nil, `tail` is the last of
them, no node occurs twice, and `size` is their number and fits a `uint`. -/
def Represents (st : State) (cs : List Cell) : Prop :=
  seg st.heap none st.list.head cs none ∧
  st.list.tail = lastAddr none cs ∧
  (cs.map Prod.fst).Nodup ∧
  st.list.size = cs.length ∧
  st.list.size < uintMod

/-- A well-formed list. -/
def WF (st : State) : Prop := ∃ cs, Represents st cs

/-- State `st` is a well-formed list whose head-to-tail key sequence is `s`. -/
def Models (st : State) (s : List Value) : Prop :=
  ∃ cs, Represents st cs ∧ cs.map Prod.snd = s

/-- Follow `next` from `cur` until nil and collect the addresses visited;
`none` when a link dangles or the walk is longer than the fuel. -/
def walkNext (h : Heap) : Nat → Option Nat → Option (List Nat)
  | _, none => some []
  | 0, some _ => none
  | fuel + 1, some a =>
    match h[a]? with
    | none => none
    | some nd => (walkNext h fuel nd.next).map (fun as => a :: as)

/-- Follow `prev` from `cur` until nil and collect the addresses visited. -/
def walkPrev (h : Heap) : Nat → Option Nat → Option (List Nat)
  | _, none => some []
  | 0, some _ => none
  | fuel + 1, some a =>
    match h[a]? with
    | none => none
    | some nd => (walkPrev h fuel nd.prev).map (fun as => a :: as)

/-- The nodes reached by following `next` from `head` until nil. A walk that
ends visits no heap cell twice, so the heap length is fuel enough. -/
def nodesFrom (st : State) : Option (List Nat) :=
  walkNext st.heap st.heap.length st.list.head

/-- The nodes reached by following `prev` from `tail` until nil. -/
def nodesBack (st : State) : Option (List Nat) :=
  walkPrev st.heap st.heap.length st.list.tail

/-- Follow `next` from `cur` until nil and collect the keys of the nodes
visited. -/
def walkKeys (h : Heap) : Nat → Option Nat → Option (List Value)
  | _, none => some []
  | 0, some _ => none
  | fuel + 1, some a =>
    match h[a]? with
    | none => none
    | some nd => (walkKeys h fuel nd.next).map (fun ks => nd.key :: ks)

/-- The head-to-tail key sequence: the keys of the nodes reached by following
`next` from `head` until nil. -/
def keysFrom (st : State) : Option (List Value) :=
  walkKeys st.heap st.heap.length st.list.head

/-- Size accounting: the walk from `head` ends and visits `size` nodes. -/
def SizeAccounting (st : State) : Prop :=
  (nodesFrom st).map List.length = some st.list.size

/-- Emptiness agreement: `head == nil` iff `tail == nil` iff `size == 0`. -/
def EmptinessAgreement (st : State) : Prop :=
  (st.list.head = none ↔ st.list.tail = none) ∧ (st.list.tail = none ↔ st.list.size = 0)

/-- Bidirectional link integrity. -/
def LinkIntegrity (st : State) : Prop :=
  (∀ a, st.list.head = some a → ∃ n, st.heap[a]? = some n ∧ n.prev = none) ∧
  (∀ a, st.list.tail = some a → ∃ n, st.heap[a]? = some n ∧ n.next = none) ∧
  ∃ as, nodesFrom st = some as ∧
    st.list.tail = as.getLast? ∧
    (∀ a ∈ as, ∃ n, st.heap[a]? = some n ∧
      (∀ b, n.next = some b → ∃ m, st.heap[b]? = some m ∧ m.prev = some a) ∧
      (∀ b, n.prev = some b → ∃ m, st.heap[b]? = some m ∧ m.next = some a)) ∧
    nodesBack st = some as.reverse

/-- The state a call leaves when it returns. -/
def Outcome.after {α : Type} : Outcome α → Option State
  | .ret _ _ st => some st
  | .panic => none
  | .timeout => none

/-- The mutating calls of the package. -/
inductive Op
  | insertBack (key : Value)
  | insertFront (key : Value)
  | insertAt (index : Nat) (key : Value)
  | removeBack
  | removeFront
  | removeAt (index : Nat)
  | remove (fuel : Nat) (key : Value)
  deriving DecidableEq, Repr

/-- Whether the call is one of the three inserts. -/
def Op.isInsert : Op → Bool
  | .insertBack _ => true
  | .insertFront _ => true
  | .insertAt _ _ => true
  | _ => false

/-- The state a mutating call leaves when it returns. -/
def Op.run : Op → State → Option State
  | .insertBack key, st => (InsertBack st key).after
  | .insertFront key, st => (InsertFront st key).after
  | .insertAt index key, st => (InsertAt st index key).after
  | .removeBack, st => (RemoveBack st).after
  | .removeFront, st => (RemoveFront st).after
  | .removeAt index, st => (RemoveAt st index).after
  | .remove fuel key, st => (Remove fuel st key).after

/-! ## Concrete lists -/

/-- The empty list of integers built by `NewLinkedList(0)` on an empty heap. -/
def emptyInts : State :=
  { heap := [], list := NewLinkedList (.int 0) }

/-- The list `[0, 1, 2]` after `InsertBack(1)`, `InsertBack(2)`, `InsertFront(0)`
on `emptyInts`. -/
def scenario : State :=
  { heap := [{ prev := some 2, next := some 1, key := .int 1, keyType := some .int },
             { prev := some 0, next := none, key := .int 2, keyType := some .int },
             { prev := none, next := some 0, key := .int 0, keyType := some .int }]
    list := { head := some 2, tail := some 1, size := 3, keyType := some .int } }

/-- The cells of `scenario`, head to tail. -/
def scenarioCells : List Cell := [(2, .int 0), (0, .int 1), (1, .int 2)]

/-- The list `[0, 7, 1, 2]` that `InsertAt(1, 7)` makes of `scenario`. -/
def scenarioInserted : State :=
  { heap := [{ prev := some 3, next := some 1, key := .int 1, keyType := some .int },
             { prev := some 0, next := none, key := .int 2, keyType := some .int },
             { prev := none, next := some 3, key := .int 0, keyType := some .int },
             { prev := some 2, next := some 0, key := .int 7, keyType := some .int }]
    list := { head := some 2, tail := some 1, size := 4, keyType := some .int } }

/-- The list `[0, 2]` that `RemoveAt(1)` makes of `scenario`; the unlinked node
stays in the heap, unreachable. -/
def scenarioRemoved : State :=
  { heap := [{ prev := some 2, next := some 1, key := .int 1, keyType := some .int },
             { prev := some 2, next := none, key := .int 2, keyType := some .int },
             { prev := none, next := some 1, key := .int 0, keyType := some .int }]
    list := { head := some 2, tail := some 1, size := 2, keyType := some .int } }

/-- The list `[1]` that `InsertBack(1)` makes of `emptyInts`. -/
def singleInt : State :=
  { heap := [{ prev := none, next := none, key := .int 1, keyType := some .int }]
    list := { head := some 0, tail := some 0, size := 1, keyType := some .int } }

/-- The empty list that `RemoveBack()` makes of `singleInt`. -/
def singleIntEmptied : State :=
  { heap := [{ prev := none, next := none, key := .int 1, keyType := some .int }]
    list := { head := none, tail := none, size := 0, keyType := some .int } }

/-- The list `[[1]]` of integer slices, a dynamic type without `==`. -/
def sliceList : State :=
  { heap := [{ prev := none, next := none, key := .ints [1], keyType := some .intSlice }]
    list := { head := some 0, tail := some 0, size := 1, keyType := some .intSlice } }

/-- The list `[nil]` of nil interface values, as `NewLinkedList(nil)` followed
by `InsertBack(nil)` builds it. -/
def nilList : State :=
  { heap := [{ prev := none, next := none, key := .nil, keyType := none }]
    list := { head := some 0, tail := some 0, size := 1, keyType := none } }

/-- The empty list that removing the only node makes of `nilList`. -/
def nilListEmptied : State :=
  { heap := [{ prev := none, next := none, key := .nil, keyType := none }]
    list := { head := none, tail := none, size := 0, keyType := none } }

/-- The list `[NaN]` of `float64` keys. -/
def nanList : State :=
  { heap := [{ prev := none, next := none, key := .nan, keyType := some .float64 }]
    list := { head := some 0, tail := some 0, size := 1, keyType := some .float64 } }

/-- The list of the one key `struct{ v interface{} }{[]int{1}}`: the struct
type is comparable, the value its field holds is not. -/
def boxList : State :=
  { heap := [{ prev := none, next := none, key := .boxed (.ints [1]), keyType := some .box }]
    list := { head := some 0, tail := some 0, size := 1, keyType := some .box } }

/-- The list `[10, 11]` that `InsertBack(10)`, `InsertBack(11)` make of
`emptyInts`. -/
def pairInts : State :=
  { heap := [{ prev := none, next := some 1, key := .int 10, keyType := some .int },
             { prev := some 0, next := none, key := .int 11, keyType := some .int }]
    list := { head := some 0, tail := some 1, size := 2, keyType := some .int } }

/-- The list `[10, 12]` that `RemoveBack()`, `InsertBack(12)` make of
`pairInts`; the node of `11` stays on the heap, unlinked. -/
def pairIntsReplaced : State :=
  { heap := [{ prev := none, next := some 2, key := .int 10, keyType := some .int },
             { prev := some 0, next := none, key := .int 11, keyType := some .int },
             { prev := some 0, next := none, key := .int 12, keyType := some .int }]
    list := { head := some 0, tail := some 2, size := 2, keyType := some .int } }

/-- The struct copy `l2 := *l` taken of `pairInts` before `l.RemoveBack()` and
`l.InsertBack(12)`: the header of `pairInts` over the heap of
`pairIntsReplaced`. Its `tail` is the unlinked node of `11`. -/
def staleSize : State :=
  { heap := [{ prev := none, next := some 2, key := .int 10, keyType := some .int },
             { prev := some 0, next := none, key := .int 11, keyType := some .int },
             { prev := some 0, next := none, key := .int 12, keyType := some .int }]
    list := { head := some 0, tail := some 1, size := 2, keyType := some .int } }

/-- What `InsertBack(13)` makes of `staleSize`: the new node hangs from the
unlinked node of `11`. -/
def staleSizeInserted : State :=
  { heap := [{ prev := none, next := some 2, key := .int 10, keyType := some .int },
             { prev := some 0, next := some 3, key := .int 11, keyType := some .int },
             { prev := some 0, next := none, key := .int 12, keyType := some .int },
             { prev := some 1, next := none, key := .int 13, keyType := some .int }]
    list := { head := some 0, tail := some 3, size := 3, keyType := some .int } }

/-- The list `[1, 2, 3]` that `InsertBack(2)`, `InsertBack(3)` make of
`singleInt`. -/
def tripleInts : State :=
  { heap := [{ prev := none, next := some 1, key := .int 1, keyType := some .int },
             { prev := some 0, next := some 2, key := .int 2, keyType := some .int },
             { prev := some 1, next := none, key := .int 3, keyType := some .int }]
    list := { head := some 0, tail := some 2, size := 3, keyType := some .int } }

/-- The struct copy `l2 := *l` taken of `singleInt` before `l.InsertBack(2)` and
`l.InsertBack(3)`: the header of `singleInt` over the heap of `tripleInts`. -/
def staleSingle : State :=
  { heap := [{ prev := none, next := some 1, key := .int 1, keyType := some .int },
             { prev := some 0, next := some 2, key := .int 2, keyType := some .int },
             { prev := some 1, next := none, key := .int 3, keyType := some .int }]
    list := { head := some 0, tail := some 0, size := 1, keyType := some .int } }

/-- What `Remove(2)` makes of `staleSingle`: the node of `2` is unlinked along
the interior path and the size drops to 0. -/
def staleSingleRemoved : State :=
  { heap := [{ prev := none, next := some 2, key := .int 1, keyType := some .int },
             { prev := some 0, next := some 2, key := .int 2, keyType := some .int },
             { prev := some 0, next := none, key := .int 3, keyType := some .int }]
    list := { head := some 0, tail := some 0, size := 0, keyType := some .int } }

/-! ## Calls and their results -/

/-- What a returning call hands back beside its value: the error and the state
it leaves; `none` when the call panics or runs out of fuel. -/
def Outcome.result {α : Type} : Outcome α → Option (Option GoError × State)
  | .ret _ err st => some (err, st)
  | .panic => none
  | .timeout => none

/-- The calls of the package: the mutating ones, `At` and `IndexOf`. -/
inductive Call
  | mutate (op : Op)
  | atIndex (index : Nat)
  | indexOf (fuel : Nat) (t : Value)
  deriving DecidableEq, Repr

/-- The error and the state of a returning mutating call. -/
def Op.result : Op → State → Option (Option GoError × State)
  | .insertBack key, st => (InsertBack st key).result
  | .insertFront key, st => (InsertFront st key).result
  | .insertAt index key, st => (InsertAt st index key).result
  | .removeBack, st => (RemoveBack st).result
  | .removeFront, st => (RemoveFront st).result
  | .removeAt index, st => (RemoveAt st index).result
  | .remove fuel key, st => (Remove fuel st key).result

/-- The error and the state of a returning call. -/
def Call.exec : Call → State → Option (Option GoError × State)
  | .mutate op, st => op.result st
  | .atIndex index, st => (At st index).result
  | .indexOf fuel t, st => (IndexOf fuel st t).result

/-- The empty list built by `NewLinkedList(nil)` on an empty heap; its
`keyType` is the nil `reflect.Type`. -/
def emptyNil : State :=
  { heap := [], list := NewLinkedList .nil }

/-! ## Sequences of calls -/

/-- Insert the keys one after the other with `ins` (`InsertBack` or
`InsertFront`); `none` unless every call returns `(true, nil)`. -/
def insertAll (ins : State → Value → Outcome Bool) : List Value → State → Option State
  | [], st => some st
  | x :: xs, st =>
    match ins st x with
    | .ret true none st1 => insertAll ins xs st1
    | _ => none

/-- Call `RemoveFront` `n` times and collect the keys returned, in the order of
the calls; `none` unless every call returns with a nil error. -/
def drainFront : Nat → State → Option (List Value × State)
  | 0, st => some ([], st)
  | n + 1, st =>
    match RemoveFront st with
    | .ret v none st1 =>
      match drainFront n st1 with
      | some (vs, st2) => some (v :: vs, st2)
      | none => none
    | _ => none

/-- Whether the call is one of the four removals. -/
def Op.isRemove : Op → Bool
  | .removeBack => true
  | .removeFront => true
  | .removeAt _ => true
  | .remove _ _ => true
  | _ => false

/-- Whether the call is an insert. -/
def Call.isInsert : Call → Bool
  | .mutate op => op.isInsert
  | _ => false

/-- Whether the call is a removal. -/
def Call.isRemove : Call → Bool
  | .mutate op => op.isRemove
  | _ => false

/-- Run the calls one after the other and count those that returned without
error: the result is `(N, M, st)` with `N` the number of such insert calls, `M`
the number of such remove calls and `st` the final state; `none` when a call
panics or runs out of fuel. -/
def runCalls : List Call → State → Option (Nat × Nat × State)
  | [], st => some (0, 0, st)
  | c :: cs, st =>
    match c.exec st with
    | none => none
    | some (e, st1) =>
      match runCalls cs st1 with
      | none => none
      | some (n, m, st2) =>
        some (n + (if c.isInsert && e.isNone then 1 else 0),
          m + (if c.isRemove && e.isNone then 1 else 0), st2)

/-- The calls of the scenario of the specification, followed by failing ones:
three inserts, `RemoveAt(1)`, `IndexOf(2)`, `Remove(9)` (not found),
`InsertBack("text")` (type mismatch) and `At(7)` (out of range). -/
def scenarioCalls : List Call :=
  [.mutate (.insertBack (.int 1)), .mutate (.insertBack (.int 2)),
   .mutate (.insertFront (.int 0)), .mutate (.removeAt 1), .indexOf 5 (.int 2),
   .mutate (.remove 5 (.int 9)), .mutate (.insertBack (.str "text")), .atIndex 7]

/-! ## Rendering -/

/-- The text `fmt.Sprintf("%v", key)` of a key. -/
def sprintV : Value → String
  | .nil => "<nil>"
  | .int n => toString n
  | .str s => s
  | .bool b => toString b
  | .nan => "NaN"
  | .ints xs => "[" ++ " ".intercalate (xs.map toString) ++ "]"
  | .boxed v => "\x7b" ++ sprintV v ++ "\x7d"

/-- The loop of `String`: for each node from `cur` on, the text of its key,
followed by `", "` when `current.next != nil`; `none` when the walk is longer
than the fuel. -/
def renderFrom (h : Heap) : Nat → Option Nat → Option String
  | _, none => some ""
  | 0, some _ => none
  | fuel + 1, some a =>
    match h[a]? with
    | none => none
    | some nd =>
      match renderFrom h fuel nd.next with
      | none => none
      | some rest => some (sprintV nd.key ++ (if nd.next ≠ none then ", " else "") ++ rest)

/-- The method `String` of `LinkedList`. It writes nothing to the list, so the
state it returns is the state it was called on. -/
def LinkedList.String (fuel : Nat) (st : State) : Outcome String :=
  match renderFrom st.heap fuel st.list.head with
  | none => .timeout
  | some body => .ret ("[" ++ body ++ "]") none st

/-- The texts joined by the separator, with no separator after the last. -/
def joinSep (sep : String) : List String → String
  | [] => ""
  | [a] => a
  | a :: b :: rest => a ++ sep ++ joinSep sep (b :: rest)

instance (h : Heap) (p cur : Option Nat) (cs : List Cell) (nx : Option Nat) :
    Decidable (seg h p cur cs nx) := by
  unfold seg; infer_instance

instance (st : State) (cs : List Cell) : Decidable (Represents st cs) := by
  unfold Represents; infer_instance

instance (st : State) : Decidable (SizeAccounting st) := by
  unfold SizeAccounting; infer_instance

instance (st : State) : Decidable (EmptinessAgreement st) := by
  unfold EmptinessAgreement; infer_instance

/-! ## Segments -/

theorem seg_nil (h : Heap) (p cur nx : Option Nat) : seg h p cur [] nx ↔ cur = nx := by
  simp [seg, segB]

theorem seg_cons (h : Heap) (p cur nx : Option Nat) (c : Cell) (cs : List Cell) :
    seg h p cur (c :: cs) nx ↔
      cur = some c.1 ∧ ∃ n, h[c.1]? = some n ∧ n.prev = p ∧ n.key = c.2 ∧
        seg h (some c.1) n.next cs nx := by
  unfold seg
  rw [segB]
  cases hc : h[c.1]? with
  | none => simp
  | some n => simp [and_assoc]

theorem lastAddr_append (p : Option Nat) (xs ys : List Cell) :
    lastAddr p (xs ++ ys) = lastAddr (lastAddr p xs) ys := by
  induction xs generalizing p with
  | nil => rfl
  | cons c cs ih => simpa [lastAddr] using ih (some c.1)

theorem lastAddr_cons_irrel (p q : Option Nat) (c : Cell) (cs : List Cell) :
    lastAddr p (c :: cs) = lastAddr q (c :: cs) := rfl

theorem seg_append (h : Heap) (p cur nx : Option Nat) (xs ys : List Cell) :
    seg h p cur (xs ++ ys) nx ↔
      ∃ mid, seg h p cur xs mid ∧ seg h (lastAddr p xs) mid ys nx := by
  induction xs generalizing p cur with
  | nil => simp [seg_nil, lastAddr]
  | cons c cs ih =>
    simp only [List.cons_append, seg_cons, ih, lastAddr]
    constructor
    · rintro ⟨hc, n, hn, hp, hk, mid, h1, h2⟩
      exact ⟨mid, ⟨hc, n, hn, hp, hk, h1⟩, h2⟩
    · rintro ⟨mid, ⟨hc, n, hn, hp, hk, h1⟩, h2⟩
      exact ⟨hc, n, hn, hp, hk, mid, h1, h2⟩

theorem seg_addr_lt {h : Heap} {p cur nx : Option Nat} {cs : List Cell}
    (hs : seg h p cur cs nx) : ∀ a ∈ cs.map Prod.fst, a < h.length := by
  induction cs generalizing p cur with
  | nil => simp
  | cons c cs ih =>
    obtain ⟨_, n, hn, _, _, hrest⟩ := (seg_cons ..).1 hs
    intro a ha
    simp only [List.map_cons, List.mem_cons] at ha
    rcases ha with rfl | ha
    · exact (List.getElem?_eq_some.1 hn).1
    · exact ih hrest a ha

theorem seg_set {h : Heap} {p cur nx : Option Nat} {cs : List Cell}
    (hs : seg h p cur cs nx) (a : Nat) (v : Node) (ha : a ∉ cs.map Prod.fst) :
    seg (h.set a v) p cur cs nx := by
  induction cs generalizing p cur with
  | nil => simpa [seg_nil] using hs
  | cons c cs ih =>
    obtain ⟨hc, n, hn, hp, hk, hrest⟩ := (seg_cons ..).1 hs
    simp only [List.map_cons, List.mem_cons, not_or] at ha
    refine (seg_cons ..).2 ⟨hc, n, ?_, hp, hk, ih hrest ha.2⟩
    rw [List.getElem?_set_ne ha.1]
    exact hn

theorem seg_alloc {h : Heap} {p cur nx : Option Nat} {cs : List Cell}
    (hs : seg h p cur cs nx) (v : Node) : seg (h ++ [v]) p cur cs nx := by
  induction cs generalizing p cur with
  | nil => simpa [seg_nil] using hs
  | cons c cs ih =>
    obtain ⟨hc, n, hn, hp, hk, hrest⟩ := (seg_cons ..).1 hs
    refine (seg_cons ..).2 ⟨hc, n, ?_, hp, hk, ih hrest⟩
    rw [List.getElem?_append_left (List.getElem?_eq_some.1 hn).1]
    exact hn

/-- The first address of a chain that ends in `nx`: `nx` itself when the chain
is empty. -/
theorem seg_cur {h : Heap} {p cur nx : Option Nat} {cs : List Cell}
    (hs : seg h p cur cs nx) :
    cur = match cs with
      | [] => nx
      | c :: _ => some c.1 := by
  cases cs with
  | nil => exact (seg_nil ..).1 hs
  | cons c cs => exact ((seg_cons ..).1 hs).1

theorem seg_split (h : Heap) (p cur nx : Option Nat) (xs ys : List Cell) (c : Cell) :
    seg h p cur (xs ++ c :: ys) nx ↔
      seg h p cur xs (some c.1) ∧ ∃ n, h[c.1]? = some n ∧ n.prev = lastAddr p xs ∧
        n.key = c.2 ∧ seg h (some c.1) n.next ys nx := by
  rw [seg_append]
  constructor
  · rintro ⟨mid, h1, h2⟩
    obtain ⟨hm, n, hn, hp, hk, hr⟩ := (seg_cons ..).1 h2
    subst hm
    exact ⟨h1, n, hn, hp, hk, hr⟩
  · rintro ⟨h1, n, hn, hp, hk, hr⟩
    exact ⟨some c.1, h1, (seg_cons ..).2 ⟨rfl, n, hn, hp, hk, hr⟩⟩

theorem seg_snoc (h : Heap) (p cur nx : Option Nat) (xs : List Cell) (c : Cell) :
    seg h p cur (xs ++ [c]) nx ↔
      seg h p cur xs (some c.1) ∧ ∃ n, h[c.1]? = some n ∧ n.prev = lastAddr p xs ∧
        n.key = c.2 ∧ n.next = nx := by
  rw [seg_split]
  simp [seg_nil]

theorem lastAddr_snoc (p : Option Nat) (xs : List Cell) (c : Cell) :
    lastAddr p (xs ++ [c]) = some c.1 := by
  rw [lastAddr_append]; rfl

theorem lastAddr_eq_getLast (cs : List Cell) :
    lastAddr none cs = (cs.map Prod.fst).getLast? := by
  induction cs using List.reverseRecOn with
  | nil => rfl
  | append_singleton xs c _ => simp [lastAddr_snoc]

theorem stepsNext_seg {h : Heap} {p cur nx : Option Nat} {xs ys : List Cell} {c : Cell}
    (hs : seg h p cur (xs ++ c :: ys) nx) :
    stepsNext h xs.length cur = some (some c.1) := by
  induction xs generalizing p cur with
  | nil =>
    obtain ⟨hc, _⟩ := (seg_cons ..).1 hs
    simp [stepsNext, hc]
  | cons d ds ih =>
    obtain ⟨hc, n, hn, _, _, hr⟩ := (seg_cons ..).1 hs
    subst hc
    simp only [List.length_cons, stepsNext, deref, hn]
    exact ih hr

theorem stepsPrev_seg {h : Heap} {p cur nx : Option Nat} {xs ys : List Cell} {c : Cell}
    (hs : seg h p cur (xs ++ c :: ys) nx) :
    stepsPrev h ys.length (lastAddr p (xs ++ c :: ys)) = some (some c.1) := by
  induction ys using List.reverseRecOn generalizing nx with
  | nil =>
    simp [stepsPrev, lastAddr_snoc]
  | append_singleton zs d ih =>
    have hs2 : seg h p cur ((xs ++ c :: zs) ++ [d]) nx := by simpa using hs
    obtain ⟨h1, n, hn, hp, _, _⟩ := (seg_snoc ..).1 hs2
    have hl : lastAddr p (xs ++ c :: (zs ++ [d])) = some d.1 := by
      have := lastAddr_snoc p (xs ++ c :: zs) d
      simpa using this
    rw [hl]
    simp only [List.length_append, List.length_singleton, stepsPrev, deref, hn, hp]
    exact ih h1

theorem walkNext_seg {h : Heap} {p cur : Option Nat} {cs : List Cell}
    (hs : seg h p cur cs none) (fuel : Nat) (hf : cs.length ≤ fuel) :
    walkNext h fuel cur = some (cs.map Prod.fst) := by
  induction cs generalizing p cur fuel with
  | nil =>
    have := (seg_nil ..).1 hs
    subst this
    cases fuel <;> simp [walkNext]
  | cons c cs ih =>
    obtain ⟨hc, n, hn, _, _, hr⟩ := (seg_cons ..).1 hs
    subst hc
    cases fuel with
    | zero => simp at hf
    | succ f =>
      simp only [walkNext, hn]
      rw [ih hr f (by simpa using hf)]
      rfl

theorem walkPrev_seg {h : Heap} {cur nx : Option Nat} {cs : List Cell}
    (hs : seg h none cur cs nx) (fuel : Nat) (hf : cs.length ≤ fuel) :
    walkPrev h fuel (lastAddr none cs) = some (cs.map Prod.fst).reverse := by
  induction cs using List.reverseRecOn generalizing nx fuel with
  | nil => cases fuel <;> simp [walkPrev, lastAddr]
  | append_singleton xs c ih =>
    obtain ⟨h1, n, hn, hp, _, _⟩ := (seg_snoc ..).1 hs
    rw [lastAddr_snoc]
    cases fuel with
    | zero => simp at hf
    | succ f =>
      simp only [walkPrev, hn, hp]
      rw [ih h1 f (by simpa using hf)]
      simp

theorem nodup_length_le {as : List Nat} {n : Nat} (hnd : as.Nodup)
    (hlt : ∀ a ∈ as, a < n) : as.length ≤ n := by
  have hsub : as ⊆ List.range n := fun a ha => List.mem_range.2 (hlt a ha)
  simpa using (List.subperm_of_subset hnd hsub).length_le

theorem Represents.length_le_heap {st : State} {cs : List Cell} (hr : Represents st cs) :
    cs.length ≤ st.heap.length := by
  have := nodup_length_le hr.2.2.1 (seg_addr_lt hr.1)
  simpa using this

theorem Represents.nodesFrom {st : State} {cs : List Cell} (hr : Represents st cs) :
    nodesFrom st = some (cs.map Prod.fst) :=
  walkNext_seg hr.1 _ hr.length_le_heap

theorem Represents.nodesBack {st : State} {cs : List Cell} (hr : Represents st cs) :
    nodesBack st = some (cs.map Prod.fst).reverse := by
  unfold GoList.nodesBack
  rw [hr.2.1]
  exact walkPrev_seg hr.1 _ hr.length_le_heap

/-! ## Machine arithmetic without wrap-around -/

theorem uadd_small {a b : Nat} (h : a + b < uintMod) : uadd a b = a + b := by
  unfold uadd
  exact Nat.mod_eq_of_lt h

theorem usub_small {a b : Nat} (hb : b ≤ a) (ha : a < uintMod) : usub a b = a - b := by
  unfold usub
  unfold uintMod at *
  omega

theorem usub_eq_mod {a b : Nat} (ha : a < uintMod) (hb : b < uintMod) :
    usub a b = (a + uintMod - b) % uintMod := by
  unfold usub
  unfold uintMod at *
  omega

/-! ## Inserting at the ends -/

theorem eq_nil_or_snoc {α : Type} (l : List α) : l = [] ∨ ∃ xs c, l = xs ++ [c] := by
  induction l using List.reverseRecOn with
  | nil => exact Or.inl rfl
  | append_singleton xs c _ => exact Or.inr ⟨xs, c, rfl⟩

theorem InsertBack_spec {st : State} {cs : List Cell} (x : Value)
    (hr : Represents st cs) (hty : typeOf x = st.list.keyType)
    (hfit : cs.length + 1 < uintMod) :
    ∃ st', InsertBack st x = .ret true none st' ∧
      Represents st' (cs ++ [(st.heap.length, x)]) ∧
      st'.list.keyType = st.list.keyType := by
  obtain ⟨hseg, htail, hnd, hsize, hlt⟩ := hr
  have hfresh : st.heap.length ∉ cs.map Prod.fst := fun hm =>
    absurd (seg_addr_lt hseg _ hm) (lt_irrefl _)
  have hsz : uadd st.list.size 1 = cs.length + 1 := by
    rw [hsize]; exact uadd_small hfit
  have hnd2 : ((cs ++ [(st.heap.length, x)]).map Prod.fst).Nodup := by
    rw [List.map_append, List.nodup_append]
    refine ⟨hnd, by simp, ?_⟩
    intro a ha hb
    simp only [List.map_cons, List.map_nil, List.mem_singleton] at hb
    exact hfresh (hb ▸ ha)
  have hc : (typeOf x ≠ st.list.keyType) = False := eq_false (not_not.2 hty)
  rcases eq_nil_or_snoc cs with rfl | ⟨xs, c, rfl⟩
  · have hhead : st.list.head = none := (seg_nil ..).1 hseg
    have htl : st.list.tail = none := htail
    simp only [InsertBack, hc, hhead, htl, and_self, if_true, if_false]
    refine ⟨_, rfl, ?_, rfl⟩
    refine ⟨?_, rfl, hnd2, by simpa using hsz, by simp only [hsz]; exact hfit⟩
    refine (seg_cons ..).2 ⟨rfl, _, List.getElem?_concat_length _ _, rfl, rfl, ?_⟩
    exact (seg_nil ..).2 rfl
  · obtain ⟨hxs, cn, hcn, hcp, hck, hcnx⟩ := (seg_snoc ..).1 hseg
    have htl : st.list.tail = some c.1 := by rw [htail, lastAddr_snoc]
    have hclt : c.1 < st.heap.length := (List.getElem?_eq_some.1 hcn).1
    have hcn1 : ∀ v : Node, (st.heap ++ [v])[c.1]? = some cn := fun v => by
      rw [List.getElem?_append_left hclt]; exact hcn
    have hcx : c.1 ∉ xs.map Prod.fst := by
      rw [List.map_append, List.nodup_append] at hnd
      intro hm
      exact hnd.2.2 hm (by simp)
    simp only [InsertBack, hc, htl, hcn1, and_false, if_false, reduceCtorEq]
    refine ⟨_, rfl, ?_, rfl⟩
    refine ⟨?_, (lastAddr_snoc none (xs ++ [c]) (_, x)).symm, hnd2, by simpa using hsz,
      by simp only [hsz]; exact hfit⟩
    refine (seg_snoc ..).2 ⟨(seg_snoc ..).2 ⟨?_, ?_⟩, ?_⟩
    · exact seg_set (seg_alloc hxs _) _ _ hcx
    · refine ⟨{ cn with next := some st.heap.length }, ?_, hcp, hck, rfl⟩
      exact List.getElem?_set_self (by rw [List.length_append]; omega)
    · refine ⟨⟨some c.1, none, x, typeOf x⟩, ?_, (lastAddr_snoc ..).symm, rfl, rfl⟩
      rw [List.getElem?_set_ne (Nat.ne_of_lt hclt)]
      exact List.getElem?_concat_length _ _

theorem InsertFront_spec {st : State} {cs : List Cell} (x : Value)
    (hr : Represents st cs) (hty : typeOf x = st.list.keyType)
    (hfit : cs.length + 1 < uintMod) :
    ∃ st', InsertFront st x = .ret true none st' ∧
      Represents st' ((st.heap.length, x) :: cs) ∧
      st'.list.keyType = st.list.keyType := by
  obtain ⟨hseg, htail, hnd, hsize, hlt⟩ := hr
  have hfresh : st.heap.length ∉ cs.map Prod.fst := fun hm =>
    absurd (seg_addr_lt hseg _ hm) (lt_irrefl _)
  have hsz : uadd st.list.size 1 = cs.length + 1 := by
    rw [hsize]; exact uadd_small hfit
  have hnd2 : (((st.heap.length, x) :: cs).map Prod.fst).Nodup := by
    rw [List.map_cons, List.nodup_cons]
    exact ⟨hfresh, hnd⟩
  have hc : (typeOf x ≠ st.list.keyType) = False := eq_false (not_not.2 hty)
  cases cs with
  | nil =>
    have hhead : st.list.head = none := (seg_nil ..).1 hseg
    have htl : st.list.tail = none := htail
    simp only [InsertFront, hc, hhead, htl, and_self, if_true, if_false]
    refine ⟨_, rfl, ?_, rfl⟩
    refine ⟨?_, rfl, hnd2, by simpa using hsz, by simp only [hsz]; exact hfit⟩
    refine (seg_cons ..).2 ⟨rfl, _, List.getElem?_concat_length _ _, rfl, rfl, ?_⟩
    exact (seg_nil ..).2 rfl
  | cons c cs =>
    obtain ⟨hhd, cn, hcn, hcp, hck, hrest⟩ := (seg_cons ..).1 hseg
    have hclt : c.1 < st.heap.length := (List.getElem?_eq_some.1 hcn).1
    have hcn1 : ∀ v : Node, (st.heap ++ [v])[c.1]? = some cn := fun v => by
      rw [List.getElem?_append_left hclt]; exact hcn
    have hcx : c.1 ∉ cs.map Prod.fst := (List.nodup_cons.1 hnd).1
    simp only [InsertFront, hc, hhd, hcn1, false_and, if_false, reduceCtorEq]
    refine ⟨_, rfl, ?_, rfl⟩
    refine ⟨?_, htail, hnd2, by simpa using hsz, by simp only [hsz]; exact hfit⟩
    refine (seg_cons ..).2 ⟨rfl, ⟨none, some c.1, x, typeOf x⟩, ?_, rfl, rfl, ?_⟩
    · rw [List.getElem?_set_ne (Nat.ne_of_lt hclt)]
      exact List.getElem?_concat_length _ _
    · refine (seg_cons ..).2 ⟨rfl, { cn with prev := some st.heap.length }, ?_, rfl, hck, ?_⟩
      · exact List.getElem?_set_self (by rw [List.length_append]; omega)
      · exact seg_set (seg_alloc hrest _) _ _ hcx

/-! ## The nearer-end traversal -/

theorem locate_spec {st : State} {xs ys : List Cell} {c : Cell}
    (hr : Represents st (xs ++ c :: ys)) : locate st xs.length = some (some c.1) := by
  obtain ⟨hseg, htail, _, hsize, hlt⟩ := hr
  have hlen : st.list.size = xs.length + (ys.length + 1) := by simp [hsize]
  unfold locate
  split
  · exact stepsNext_seg hseg
  · have h1 : usub st.list.size xs.length = ys.length + 1 := by
      rw [usub_small (by omega) hlt]; omega
    have h2 : usub (ys.length + 1) 1 = ys.length := by
      rw [usub_small (by omega) (by omega)]; omega
    rw [h1, h2, htail]
    exact stepsPrev_seg hseg

theorem locate_steps {st : State} {xs ys : List Cell} {c : Cell}
    (hr : Represents st (xs ++ c :: ys)) :
    traversalSteps st.list.size xs.length = min xs.length ys.length := by
  obtain ⟨_, _, _, hsize, hlt⟩ := hr
  have hlen : st.list.size = xs.length + (ys.length + 1) := by simp [hsize]
  unfold traversalSteps
  split
  · omega
  · have h1 : usub st.list.size xs.length = ys.length + 1 := by
      rw [usub_small (by omega) hlt]; omega
    have h2 : usub (ys.length + 1) 1 = ys.length := by
      rw [usub_small (by omega) (by omega)]; omega
    rw [h1, h2]; omega

/-! ## Inserting in the interior -/

theorem InsertAt_interior {st : State} {xs ys : List Cell} {c : Cell} (x : Value)
    (hr : Represents st (xs ++ c :: ys)) (hxs : xs ≠ [])
    (hty : typeOf x = st.list.keyType) (hfit : (xs ++ c :: ys).length + 1 < uintMod) :
    ∃ st', InsertAt st xs.length x = .ret true none st' ∧
      Represents st' (xs ++ (st.heap.length, x) :: c :: ys) ∧
      st'.list.keyType = st.list.keyType := by
  have hloc := locate_spec hr
  obtain ⟨hseg, htail, hnd, hsize, hlt⟩ := hr
  have hfresh : st.heap.length ∉ (xs ++ c :: ys).map Prod.fst := fun hm =>
    absurd (seg_addr_lt hseg _ hm) (lt_irrefl _)
  have hsz : uadd st.list.size 1 = (xs ++ c :: ys).length + 1 := by
    rw [hsize]; exact uadd_small hfit
  have hc : (typeOf x ≠ st.list.keyType) = False := eq_false (not_not.2 hty)
  rcases eq_nil_or_snoc xs with rfl | ⟨zs, q, rfl⟩
  · exact absurd rfl hxs
  obtain ⟨hpre, cn, hcn, hcp, hck, hys⟩ := (seg_split ..).1 hseg
  obtain ⟨hzs, qn, hqn, hqp, hqk, hqnx⟩ := (seg_snoc ..).1 hpre
  rw [lastAddr_snoc] at hcp
  have hclt : c.1 < st.heap.length := (List.getElem?_eq_some.1 hcn).1
  have hqlt : q.1 < st.heap.length := (List.getElem?_eq_some.1 hqn).1
  -- the addresses involved are pairwise distinct
  have e1 : (zs ++ [q] ++ c :: ys).map Prod.fst =
      (zs ++ [q]).map Prod.fst ++ c.1 :: ys.map Prod.fst := by simp
  rw [e1] at hnd hfresh
  have hdis := (List.nodup_append.1 hnd).2.2
  have hqc : q.1 ≠ c.1 := fun e =>
    hdis (show q.1 ∈ (zs ++ [q]).map Prod.fst by simp) (by simp [e])
  have hqz : q.1 ∉ zs.map Prod.fst := fun hm => by
    have h1 := (List.nodup_append.1 hnd).1
    rw [List.map_append, List.nodup_append] at h1
    exact h1.2.2 hm (by simp)
  have hcz : c.1 ∉ zs.map Prod.fst := fun hm =>
    hdis (show c.1 ∈ (zs ++ [q]).map Prod.fst by simp [hm]) (by simp)
  have hqy : q.1 ∉ ys.map Prod.fst := fun hm =>
    hdis (show q.1 ∈ (zs ++ [q]).map Prod.fst by simp) (by simp [hm])
  have hcy : c.1 ∉ ys.map Prod.fst := (List.nodup_cons.1 (List.nodup_append.1 hnd).2.1).1
  have hcn1 : ∀ v : Node, (st.heap ++ [v])[c.1]? = some cn := fun v => by
    rw [List.getElem?_append_left hclt]; exact hcn
  have hqn1 : ∀ v : Node, (st.heap ++ [v])[q.1]? = some qn := fun v => by
    rw [List.getElem?_append_left hqlt]; exact hqn
  have hcn2 : ∀ v w : Node, ((st.heap ++ [v]).set q.1 w)[c.1]? = some cn := fun v w => by
    rw [List.getElem?_set_ne hqc]; exact hcn1 v
  have hi1 : ¬ (zs ++ [q]).length > st.list.size := by simp [hsize]
  have hi2 : ¬ (zs ++ [q]).length = 0 := by simp
  have hi3 : ¬ (zs ++ [q]).length = st.list.size := by simp [hsize]
  simp only [InsertAt, hi1, hi2, hi3, hc, hloc, hcn, hcn1, hcp, hqn1, hcn2, if_false]
  refine ⟨_, rfl, ?_, rfl⟩
  refine ⟨?_, ?_, ?_, ?_, ?_⟩
  · refine (seg_split ..).2 ⟨(seg_snoc ..).2 ⟨?_, ?_⟩,
      ⟨some q.1, some c.1, x, typeOf x⟩, ?_, (lastAddr_snoc ..).symm, rfl, ?_⟩
    · exact seg_set (seg_set (seg_alloc hzs _) _ _ hqz) _ _ hcz
    · refine ⟨{ qn with next := some st.heap.length }, ?_, hqp, hqk, rfl⟩
      rw [List.getElem?_set_ne (Ne.symm hqc)]
      exact List.getElem?_set_self (by rw [List.length_append]; omega)
    · rw [List.getElem?_set_ne (Nat.ne_of_lt hclt), List.getElem?_set_ne (Nat.ne_of_lt hqlt)]
      exact List.getElem?_concat_length _ _
    · refine (seg_cons ..).2 ⟨rfl, { cn with prev := some st.heap.length }, ?_, rfl, hck, ?_⟩
      · exact List.getElem?_set_self (by rw [List.length_set, List.length_append]; omega)
      · exact seg_set (seg_set (seg_alloc hys _) _ _ hqy) _ _ hcy
  · simp only [htail, lastAddr_append, lastAddr]
  · have e2 : (zs ++ [q] ++ (st.heap.length, x) :: c :: ys).map Prod.fst =
        (zs ++ [q]).map Prod.fst ++ st.heap.length :: c.1 :: ys.map Prod.fst := by simp
    rw [e2]
    exact List.nodup_middle.2 (List.nodup_cons.2 ⟨hfresh, hnd⟩)
  · simp only [hsz]; simp; omega
  · simp only [hsz]; simpa using hfit

theorem split_at_index {α : Type} (l : List α) (i : Nat) (hi : i < l.length) :
    l = l.take i ++ l[i] :: l.drop (i + 1) ∧ (l.take i).length = i := by
  refine ⟨?_, by simp [Nat.min_eq_left (le_of_lt hi)]⟩
  conv_lhs => rw [← List.take_append_drop i l]
  rw [List.drop_eq_getElem_cons hi]

theorem InsertAt_spec {st : State} {cs : List Cell} (i : Nat) (x : Value)
    (hr : Represents st cs) (hi : i ≤ cs.length)
    (hty : typeOf x = st.list.keyType) (hfit : cs.length + 1 < uintMod) :
    ∃ st', InsertAt st i x = .ret true none st' ∧
      Represents st' (cs.take i ++ (st.heap.length, x) :: cs.drop i) ∧
      st'.list.keyType = st.list.keyType := by
  have hsize : st.list.size = cs.length := hr.2.2.2.1
  have hc : (typeOf x ≠ st.list.keyType) = False := eq_false (not_not.2 hty)
  by_cases h0 : i = 0
  · subst h0
    have hrun : InsertAt st 0 x = InsertFront st x := by
      simp only [InsertAt, hc, if_false, if_true, gt_iff_lt, Nat.not_lt_zero]
    rw [hrun]
    simpa using InsertFront_spec x hr hty hfit
  by_cases hn : i = cs.length
  · subst hn
    have hrun : InsertAt st cs.length x = InsertBack st x := by
      simp only [InsertAt, hc, hsize, h0, if_false, if_true, gt_iff_lt, lt_irrefl]
    rw [hrun]
    simpa using InsertBack_spec x hr hty hfit
  have hlt : i < cs.length := lt_of_le_of_ne hi hn
  obtain ⟨hsplit, hlen⟩ := split_at_index cs i hlt
  have hxs : cs.take i ≠ [] := by
    intro e
    rw [e] at hlen
    exact h0 hlen.symm
  rw [hsplit] at hr hfit
  have := InsertAt_interior x hr hxs hty hfit
  rw [hlen] at this
  rw [List.drop_eq_getElem_cons hlt]
  exact this

/-! ## Reading -/

theorem At_spec {st : State} {xs ys : List Cell} {c : Cell}
    (hr : Represents st (xs ++ c :: ys)) : At st xs.length = .ret c.2 none st := by
  have hloc := locate_spec hr
  obtain ⟨hseg, _, _, hsize, _⟩ := hr
  obtain ⟨_, cn, hcn, _, hck, _⟩ := (seg_split ..).1 hseg
  have hi : ¬ xs.length ≥ st.list.size := by simp [hsize]
  simp only [At, hi, hloc, deref, hcn, hck, if_false]

/-! ## Removing at the ends -/

theorem RemoveFront_spec {st : State} {c : Cell} {cs : List Cell}
    (hr : Represents st (c :: cs)) :
    ∃ st', RemoveFront st = .ret c.2 none st' ∧ Represents st' cs ∧
      st'.list.keyType = st.list.keyType := by
  obtain ⟨hseg, htail, hnd, hsize, hlt⟩ := hr
  obtain ⟨hhd, cn, hcn, hcp, hck, hrest⟩ := (seg_cons ..).1 hseg
  have h0 : ¬ st.list.size = 0 := by simp [hsize]
  cases cs with
  | nil =>
    have h1 : st.list.size = 1 := by simp [hsize]
    simp only [RemoveFront, h0, h1, hhd, deref, hcn, hck, if_false, if_true]
    refine ⟨_, rfl, ?_, rfl⟩
    exact ⟨(seg_nil ..).2 rfl, rfl, by simp, rfl, by simp [uintMod]⟩
  | cons d ds =>
    have h1 : ¬ st.list.size = 1 := by simp [hsize]
    obtain ⟨hnx, dn, hdn, hdp, hdk, hds⟩ := (seg_cons ..).1 hrest
    have hdx : d.1 ∉ ds.map Prod.fst := by
      simp only [List.map_cons, List.nodup_cons] at hnd
      exact hnd.2.1
    have hsz : usub st.list.size 1 = (d :: ds).length := by
      rw [usub_small (by rw [hsize]; simp) hlt, hsize]; simp
    simp only [RemoveFront, h0, h1, hhd, deref, hcn, hck, hnx, hdn, if_false]
    refine ⟨_, rfl, ?_, rfl⟩
    refine ⟨?_, htail, (List.nodup_cons.1 hnd).2, hsz, ?_⟩
    · refine (seg_cons ..).2 ⟨rfl, { dn with prev := none }, ?_, rfl, hdk, ?_⟩
      · exact List.getElem?_set_self (List.getElem?_eq_some.1 hdn).1
      · exact seg_set hds _ _ hdx
    · simp only [hsz]
      rw [hsize] at hlt
      exact lt_trans (by simp) hlt

theorem RemoveBack_spec {st : State} {c : Cell} {cs : List Cell}
    (hr : Represents st (cs ++ [c])) :
    ∃ st', RemoveBack st = .ret c.2 none st' ∧ Represents st' cs ∧
      st'.list.keyType = st.list.keyType := by
  obtain ⟨hseg, htail, hnd, hsize, hlt⟩ := hr
  obtain ⟨hpre, cn, hcn, hcp, hck, hcnx⟩ := (seg_snoc ..).1 hseg
  rw [lastAddr_snoc] at htail
  have h0 : ¬ st.list.size = 0 := by simp [hsize]
  rcases eq_nil_or_snoc cs with rfl | ⟨zs, q, rfl⟩
  · have h1 : st.list.size = 1 := by simp [hsize]
    have hhd : st.list.head = some c.1 := ((seg_cons ..).1 hseg).1
    simp only [RemoveBack, h0, h1, hhd, deref, hcn, hck, if_false, if_true]
    refine ⟨_, rfl, ?_, rfl⟩
    exact ⟨(seg_nil ..).2 rfl, rfl, by simp, rfl, by simp [uintMod]⟩
  · have h1 : ¬ st.list.size = 1 := by simp [hsize]
    obtain ⟨hzs, qn, hqn, hqp, hqk, hqnx⟩ := (seg_snoc ..).1 hpre
    rw [lastAddr_snoc] at hcp
    rw [List.map_append, List.nodup_append] at hnd
    have hqz : q.1 ∉ zs.map Prod.fst := by
      have h2 := hnd.1
      rw [List.map_append, List.nodup_append] at h2
      exact fun hm => h2.2.2 hm (by simp)
    have hsz : usub st.list.size 1 = (zs ++ [q]).length := by
      rw [usub_small (by rw [hsize]; simp) hlt, hsize]; simp
    simp only [RemoveBack, h0, h1, htail, deref, hcn, hck, hcp, hqn, if_false]
    refine ⟨_, rfl, ?_, rfl⟩
    refine ⟨?_, (lastAddr_snoc ..).symm, hnd.1, hsz, ?_⟩
    · refine (seg_snoc ..).2 ⟨seg_set hzs _ _ hqz, { qn with next := none }, ?_, hqp, hqk, rfl⟩
      exact List.getElem?_set_self (List.getElem?_eq_some.1 hqn).1
    · simp only [hsz]
      rw [hsize] at hlt
      exact lt_trans (by simp) hlt

/-! ## Removing in the interior -/

theorem nodup_mid {A B : List Nat} {a : Nat} (h : (A ++ a :: B).Nodup) :
    a ∉ A ∧ a ∉ B ∧ (A ++ B).Nodup := by
  have h1 := List.nodup_cons.1 (List.nodup_middle.1 h)
  exact ⟨fun hm => h1.1 (List.mem_append_left _ hm),
    fun hm => h1.1 (List.mem_append_right _ hm), h1.2⟩

theorem unlink_spec {h : Heap} {p cur nx : Option Nat} {zs ws : List Cell} {q c d : Cell}
    (hs : seg h p cur (zs ++ q :: c :: d :: ws) nx)
    (hnd : ((zs ++ q :: c :: d :: ws).map Prod.fst).Nodup) :
    ∃ h2, unlink h c.1 = some h2 ∧ h2[c.1]? = h[c.1]? ∧
      seg h2 p cur (zs ++ q :: d :: ws) nx := by
  obtain ⟨hzs, qn, hqn, hqp, hqk, hq⟩ := (seg_split ..).1 hs
  obtain ⟨hqnx, cn, hcn, hcp, hck, hc⟩ := (seg_cons ..).1 hq
  obtain ⟨hcnx, dn, hdn, hdp, hdk, hd⟩ := (seg_cons ..).1 hc
  -- the addresses involved are pairwise distinct
  have e1 : (zs ++ q :: c :: d :: ws).map Prod.fst =
      zs.map Prod.fst ++ q.1 :: (c.1 :: d.1 :: ws.map Prod.fst) := by simp
  rw [e1] at hnd
  obtain ⟨hqz, hqr, hnd1⟩ := nodup_mid hnd
  obtain ⟨_, hcr, hnd2⟩ := nodup_mid hnd1
  obtain ⟨hdz, hdw, _⟩ := nodup_mid hnd2
  simp only [List.mem_cons, not_or] at hqr hcr
  have hqc : q.1 ≠ c.1 := hqr.1
  have hqd : q.1 ≠ d.1 := hqr.2.1
  have hqw : q.1 ∉ ws.map Prod.fst := hqr.2.2
  have hcd : c.1 ≠ d.1 := hcr.1
  have hcn1 : ∀ v : Node, (h.set q.1 v)[c.1]? = some cn := fun v => by
    rw [List.getElem?_set_ne hqc]; exact hcn
  have hdn1 : ∀ v : Node, (h.set q.1 v)[d.1]? = some dn := fun v => by
    rw [List.getElem?_set_ne hqd]; exact hdn
  simp only [unlink, hcn, hcp, hqn, hcn1, hcnx, hdn1]
  refine ⟨_, rfl, ?_, ?_⟩
  · rw [List.getElem?_set_ne (Ne.symm hcd), List.getElem?_set_ne hqc]
    exact hcn
  · refine (seg_split ..).2 ⟨seg_set (seg_set hzs _ _ hqz) _ _ hdz,
      { qn with next := some d.1 }, ?_, hqp, hqk, ?_⟩
    · rw [List.getElem?_set_ne (Ne.symm hqd)]
      exact List.getElem?_set_self (List.getElem?_eq_some.1 hqn).1
    · refine (seg_cons ..).2 ⟨rfl, { dn with prev := some q.1 }, ?_, rfl, hdk, ?_⟩
      · exact List.getElem?_set_self (by
          rw [List.length_set]; exact (List.getElem?_eq_some.1 hdn).1)
      · exact seg_set (seg_set hd _ _ hqw) _ _ hdw

theorem unlink_represents {st : State} {zs ws : List Cell} {q c d : Cell}
    (hr : Represents st (zs ++ q :: c :: d :: ws)) :
    ∃ h2, unlink st.heap c.1 = some h2 ∧ h2[c.1]? = st.heap[c.1]? ∧
      Represents { heap := h2, list := { st.list with size := usub st.list.size 1 } }
        (zs ++ q :: d :: ws) := by
  obtain ⟨hseg, htail, hnd, hsize, hlt⟩ := hr
  obtain ⟨h2, hun, hkey, hseg2⟩ := unlink_spec hseg hnd
  have hl1 : (zs ++ q :: c :: d :: ws).length = zs.length + ws.length + 3 := by
    simp only [List.length_append, List.length_cons]; omega
  have hl2 : (zs ++ q :: d :: ws).length = zs.length + ws.length + 2 := by
    simp only [List.length_append, List.length_cons]; omega
  have hsz : usub st.list.size 1 = (zs ++ q :: d :: ws).length := by
    rw [usub_small (by omega) hlt]; omega
  refine ⟨h2, hun, hkey, hseg2, ?_, ?_, hsz, ?_⟩
  · simp only [htail, lastAddr_append, lastAddr]
  · have e1 : (zs ++ q :: c :: d :: ws).map Prod.fst =
        (zs.map Prod.fst ++ [q.1]) ++ c.1 :: (d.1 :: ws.map Prod.fst) := by simp
    have e2 : (zs ++ q :: d :: ws).map Prod.fst =
        (zs.map Prod.fst ++ [q.1]) ++ (d.1 :: ws.map Prod.fst) := by simp
    rw [e1] at hnd
    rw [e2]
    exact (nodup_mid hnd).2.2
  · show usub st.list.size 1 < uintMod
    omega

theorem RemoveAt_spec {st : State} {xs ys : List Cell} {c : Cell}
    (hr : Represents st (xs ++ c :: ys)) :
    ∃ st', RemoveAt st xs.length = .ret c.2 none st' ∧ Represents st' (xs ++ ys) ∧
      st'.list.keyType = st.list.keyType := by
  have hsize : st.list.size = xs.length + (ys.length + 1) := by simp [hr.2.2.2.1]
  have hlt : st.list.size < uintMod := hr.2.2.2.2
  have hi : ¬ xs.length ≥ st.list.size := by omega
  have hlast : usub st.list.size 1 = xs.length + ys.length := by
    rw [usub_small (by omega) hlt]; omega
  rcases eq_nil_or_snoc xs with rfl | ⟨zs, q, rfl⟩
  · have hrun : RemoveAt st ([] : List Cell).length = RemoveFront st := by
      simp only [RemoveAt, List.length_nil, hi, if_false, if_true]
      rw [if_neg (by simpa using hi)]
    rw [hrun]
    simpa using RemoveFront_spec hr
  have h0 : ¬ (zs ++ [q]).length = 0 := by simp
  cases ys with
  | nil =>
    have hrun : RemoveAt st (zs ++ [q]).length = RemoveBack st := by
      simp only [RemoveAt, hi, h0, hlast, List.length_nil, Nat.add_zero, if_false, if_true]
    rw [hrun]
    simpa using RemoveBack_spec hr
  | cons d ws =>
    have hloc := locate_spec hr
    have hr2 : Represents st (zs ++ q :: c :: d :: ws) := by simpa using hr
    obtain ⟨h2, hun, hkey, hrep⟩ := unlink_represents hr2
    obtain ⟨_, cn, hcn, _, hck, _⟩ := (seg_split ..).1 hr.1
    have h1 : ¬ (zs ++ [q]).length = usub st.list.size 1 := by
      rw [hlast]; simp
    rw [hcn] at hkey
    simp only [RemoveAt, hi, h0, h1, hloc, hun, hkey, hck, if_false]
    refine ⟨_, rfl, ?_, rfl⟩
    simpa using hrep

/-! ## The linear search -/

theorem typeOf_eq_none {v : Value} : typeOf v = none ↔ v = .nil := by
  cases v <;> simp [typeOf]

theorem ifaceEq_true {a b : Value} (h : ifaceEq a b = some true) : a = b := by
  induction a generalizing b with
  | nil =>
    simp only [ifaceEq, Option.some.injEq, decide_eq_true_eq] at h
    exact h.symm
  | int m => cases b <;> simp_all [ifaceEq]
  | str s => cases b <;> simp_all [ifaceEq]
  | bool x => cases b <;> simp_all [ifaceEq]
  | nan => simp [ifaceEq] at h
  | ints xs => cases b <;> simp [ifaceEq] at h
  | boxed u ih =>
    cases b with
    | boxed v =>
      simp only [ifaceEq] at h
      rw [ih h]
    | _ => simp [ifaceEq] at h

/-- Keys of different dynamic types are unequal, without panic. -/
theorem ifaceEq_of_type_ne {a b : Value} (h : typeOf a ≠ typeOf b) :
    ifaceEq a b = some false := by
  cases a <;> cases b <;> simp_all [ifaceEq, typeOf]

/-- Comparing two keys of one uncomparable dynamic type panics. -/
theorem ifaceEq_uncomparable {a b : Value} {ty : GoType} (ha : typeOf a = some ty)
    (hb : typeOf b = some ty) (hc : comparable ty = false) : ifaceEq a b = none := by
  cases ty <;> simp [comparable] at hc
  cases a <;> cases b <;> simp_all [ifaceEq, typeOf]

/-- Against a plain key, `==` never panics and is value equality. -/
theorem ifaceEq_plain {v t : Value} (h : isPlain t = true) :
    ifaceEq v t = some (decide (v = t)) := by
  cases t <;> cases v <;> simp_all [ifaceEq, isPlain]

theorem scan_found {h : Heap} {t : Value} {p cur nx : Option Nat} {xs ys : List Cell}
    {c : Cell} (hs : seg h p cur (xs ++ c :: ys) nx)
    (hne : ∀ d ∈ xs, ifaceEq d.2 t = some false) (heq : ifaceEq c.2 t = some true)
    (fuel k : Nat) (hf : xs.length < fuel) (hk : k + xs.length < uintMod) :
    scan h t fuel cur k = .found c.1 (k + xs.length) := by
  induction xs generalizing p cur fuel k with
  | nil =>
    obtain ⟨hc, n, hn, _, hkey, _⟩ := (seg_cons ..).1 hs
    subst hc
    cases fuel with
    | zero => simp at hf
    | succ f => simp [scan, hn, hkey, heq]
  | cons d ds ih =>
    obtain ⟨hc, n, hn, _, hkey, hr⟩ := (seg_cons ..).1 hs
    subst hc
    cases fuel with
    | zero => simp at hf
    | succ f =>
      have hd : ifaceEq d.2 t = some false := hne d (by simp)
      have hk1 : uadd k 1 = k + 1 := uadd_small (by simp at hk; omega)
      simp only [List.cons_append, scan, hn, hkey, hd, hk1]
      rw [ih hr (fun e he => hne e (by simp [he])) f (k + 1) (by simpa using hf)
        (by simp at hk; omega)]
      simp only [List.length_cons]
      congr 1
      omega

theorem scan_notFound {h : Heap} {t : Value} {p cur : Option Nat} {cs : List Cell}
    (hs : seg h p cur cs none) (hne : ∀ d ∈ cs, ifaceEq d.2 t = some false)
    (fuel k : Nat) (hf : cs.length ≤ fuel) :
    scan h t fuel cur k = .notFound := by
  induction cs generalizing p cur fuel k with
  | nil =>
    have := (seg_nil ..).1 hs
    subst this
    cases fuel <;> simp [scan]
  | cons d ds ih =>
    obtain ⟨hc, n, hn, _, hkey, hr⟩ := (seg_cons ..).1 hs
    subst hc
    cases fuel with
    | zero => simp at hf
    | succ f =>
      have hd : ifaceEq d.2 t = some false := hne d (by simp)
      simp only [scan, hn, hkey, hd]
      exact ih hr (fun e he => hne e (by simp [he])) f _ (by simpa using hf)

/-- Whatever the search returns, it is the first cell whose key compares equal. -/
theorem scan_found_inv {h : Heap} {t : Value} {p cur : Option Nat} {cs : List Cell}
    (hs : seg h p cur cs none) {fuel k a idx : Nat}
    (hsc : scan h t fuel cur k = .found a idx) :
    ∃ xs c ys, cs = xs ++ c :: ys ∧ c.1 = a ∧
      (∀ d ∈ xs, ifaceEq d.2 t = some false) ∧ ifaceEq c.2 t = some true := by
  induction cs generalizing p cur fuel k with
  | nil =>
    have := (seg_nil ..).1 hs
    subst this
    cases fuel <;> simp [scan] at hsc
  | cons d ds ih =>
    obtain ⟨hc, n, hn, _, hkey, hr⟩ := (seg_cons ..).1 hs
    subst hc
    cases fuel with
    | zero => simp [scan] at hsc
    | succ f =>
      simp only [scan, hn, hkey] at hsc
      cases hd : ifaceEq d.2 t with
      | none => simp [hd] at hsc
      | some b =>
        cases b with
        | true =>
          simp only [hd, Search.found.injEq] at hsc
          exact ⟨[], d, ds, rfl, hsc.1, by simp, hd⟩
        | false =>
          simp only [hd] at hsc
          obtain ⟨xs, c, ys, he, hca, hne, heq⟩ := ih hr hsc
          refine ⟨d :: xs, c, ys, by simp [he], hca, ?_, heq⟩
          intro e hm
          rcases List.mem_cons.1 hm with rfl | hm
          · exact hd
          · exact hne e hm

/-! ## Removing by key -/

theorem Represents.head_eq {st : State} {c : Cell} {cs : List Cell}
    (hr : Represents st (c :: cs)) : st.list.head = some c.1 :=
  ((seg_cons ..).1 hr.1).1

theorem Represents.tail_eq {st : State} {c : Cell} {cs : List Cell}
    (hr : Represents st (cs ++ [c])) : st.list.tail = some c.1 := by
  rw [hr.2.1, lastAddr_snoc]

theorem Represents.addr_inj {st : State} {xs ys : List Cell} {c : Cell}
    (hr : Represents st (xs ++ c :: ys)) :
    (∀ d ∈ xs, d.1 ≠ c.1) ∧ (∀ d ∈ ys, d.1 ≠ c.1) := by
  have hnd := hr.2.2.1
  have e1 : (xs ++ c :: ys).map Prod.fst = xs.map Prod.fst ++ c.1 :: ys.map Prod.fst := by simp
  rw [e1] at hnd
  obtain ⟨h1, h2, _⟩ := nodup_mid hnd
  exact ⟨fun d hd e => h1 (e ▸ List.mem_map_of_mem Prod.fst hd),
    fun d hd e => h2 (e ▸ List.mem_map_of_mem Prod.fst hd)⟩

/-- Every returning call of `Remove` on a well-formed list either fails and
leaves the state untouched, or removes the first cell whose key compares equal;
the boolean it then returns is `val != nil` when that cell is the head or the
tail and `true` when it is interior. -/
theorem Remove_ret {st st' : State} {cs : List Cell} {fuel : Nat} {key : Value} {v : Bool}
    {e : Option GoError} (hr : Represents st cs)
    (hrun : Remove fuel st key = .ret v e st') :
    (st' = st ∧ v = false ∧ e ≠ none) ∨
    (∃ xs c ys, cs = xs ++ c :: ys ∧ (∀ d ∈ xs, ifaceEq d.2 key = some false) ∧
      ifaceEq c.2 key = some true ∧ Represents st' (xs ++ ys) ∧ e = none ∧
      v = (if xs = [] ∨ ys = [] then decide (c.2 ≠ Value.nil) else true) ∧
      st'.list.keyType = st.list.keyType) := by
  unfold Remove at hrun
  by_cases h0 : st.list.size = 0
  · rw [if_pos h0] at hrun
    simp only [Outcome.ret.injEq] at hrun
    exact Or.inl ⟨hrun.2.2.symm, hrun.1.symm, by rw [← hrun.2.1]; simp⟩
  rw [if_neg h0] at hrun
  by_cases hty : typeOf key ≠ st.list.keyType
  · rw [if_pos hty] at hrun
    unfold typeError at hrun
    cases hk : st.list.keyType with
    | none => simp [hk] at hrun
    | some t =>
      simp only [hk, Outcome.ret.injEq] at hrun
      exact Or.inl ⟨hrun.2.2.symm, hrun.1.symm, by rw [← hrun.2.1]; simp⟩
  rw [if_neg hty] at hrun
  cases hsc : scan st.heap key fuel st.list.head 0 with
  | panic => simp [hsc] at hrun
  | timeout => simp [hsc] at hrun
  | notFound =>
    simp only [hsc, Outcome.ret.injEq] at hrun
    exact Or.inl ⟨hrun.2.2.symm, hrun.1.symm, by rw [← hrun.2.1]; simp⟩
  | found a idx =>
    simp only [hsc] at hrun
    obtain ⟨xs, c, ys, hcs, hca, hne, heq⟩ := scan_found_inv hr.1 hsc
    subst hcs
    subst hca
    obtain ⟨hinjx, hinjy⟩ := hr.addr_inj
    right
    refine ⟨xs, c, ys, rfl, hne, heq, ?_⟩
    by_cases hh : some c.1 = st.list.head
    · rw [if_pos hh] at hrun
      cases xs with
      | nil =>
        obtain ⟨st2, hrf, hrep, hkt⟩ := RemoveFront_spec hr
        simp only [hrf, viaRemoved, Outcome.ret.injEq] at hrun
        obtain ⟨hv, he, hst⟩ := hrun
        subst hst
        exact ⟨hrep, he.symm, by simp [← hv], hkt⟩
      | cons x xs =>
        have hx : st.list.head = some x.1 := hr.head_eq
        rw [hx] at hh
        exact absurd (Option.some.inj hh).symm (hinjx x (by simp))
    rw [if_neg hh] at hrun
    by_cases ht : some c.1 = st.list.tail
    · rw [if_pos ht] at hrun
      rcases eq_nil_or_snoc ys with rfl | ⟨ws, y, rfl⟩
      · obtain ⟨st2, hrb, hrep, hkt⟩ := RemoveBack_spec hr
        simp only [hrb, viaRemoved, Outcome.ret.injEq] at hrun
        obtain ⟨hv, he, hst⟩ := hrun
        subst hst
        exact ⟨by simpa using hrep, he.symm, by simp [← hv], hkt⟩
      · have hr2 : Represents st ((xs ++ c :: ws) ++ [y]) := by simpa using hr
        have hy : st.list.tail = some y.1 := hr2.tail_eq
        rw [hy] at ht
        exact absurd (Option.some.inj ht).symm (hinjy y (by simp))
    rw [if_neg ht] at hrun
    rcases eq_nil_or_snoc xs with rfl | ⟨zs, q, rfl⟩
    · exact absurd hr.head_eq.symm hh
    cases ys with
    | nil => exact absurd hr.tail_eq.symm ht
    | cons d ws =>
      have hr2 : Represents st (zs ++ q :: c :: d :: ws) := by simpa using hr
      obtain ⟨h2, hun, _, hrep⟩ := unlink_represents hr2
      simp only [hun, Outcome.ret.injEq] at hrun
      obtain ⟨hv, he, hst⟩ := hrun
      subst hst
      exact ⟨by simpa using hrep, he.symm, by simp [← hv], rfl⟩

/-! ## The invariants follow from the representation -/

theorem walkKeys_seg {h : Heap} {p cur : Option Nat} {cs : List Cell}
    (hs : seg h p cur cs none) (fuel : Nat) (hf : cs.length ≤ fuel) :
    walkKeys h fuel cur = some (cs.map Prod.snd) := by
  induction cs generalizing p cur fuel with
  | nil =>
    have := (seg_nil ..).1 hs
    subst this
    cases fuel <;> simp [walkKeys]
  | cons c cs ih =>
    obtain ⟨hc, n, hn, _, hk, hr⟩ := (seg_cons ..).1 hs
    subst hc
    cases fuel with
    | zero => simp at hf
    | succ f =>
      simp only [walkKeys, hn]
      rw [ih hr f (by simpa using hf), hk]
      rfl

theorem Represents.keysFrom {st : State} {cs : List Cell} (hr : Represents st cs) :
    keysFrom st = some (cs.map Prod.snd) :=
  walkKeys_seg hr.1 _ hr.length_le_heap

theorem Models.keys_eq {st : State} {s : List Value} (hm : Models st s) :
    keysFrom st = some s := by
  obtain ⟨cs, hr, rfl⟩ := hm
  exact hr.keysFrom

theorem Models.size_eq {st : State} {s : List Value} (hm : Models st s) :
    st.list.size = s.length := by
  obtain ⟨cs, hr, rfl⟩ := hm
  simpa using hr.2.2.2.1

theorem Models.wf {st : State} {s : List Value} (hm : Models st s) : WF st := by
  obtain ⟨cs, hr, _⟩ := hm
  exact ⟨cs, hr⟩

theorem Represents.sizeAccounting {st : State} {cs : List Cell} (hr : Represents st cs) :
    SizeAccounting st := by
  unfold SizeAccounting
  rw [hr.nodesFrom, hr.2.2.2.1]
  simp

theorem lastAddr_some (a : Nat) (cs : List Cell) : ∃ b, lastAddr (some a) cs = some b := by
  induction cs generalizing a with
  | nil => exact ⟨a, rfl⟩
  | cons c cs ih => exact ih c.1

theorem Represents.emptinessAgreement {st : State} {cs : List Cell}
    (hr : Represents st cs) : EmptinessAgreement st := by
  obtain ⟨hseg, htail, _, hsize, _⟩ := hr
  unfold EmptinessAgreement
  cases cs with
  | nil =>
    have hh : st.list.head = none := (seg_nil ..).1 hseg
    have ht : st.list.tail = none := htail
    have hz : st.list.size = 0 := hsize
    simp [hh, ht, hz]
  | cons c cs =>
    have hh : st.list.head = some c.1 := ((seg_cons ..).1 hseg).1
    obtain ⟨b, hb⟩ := lastAddr_some c.1 cs
    have ht : st.list.tail = some b := by rw [htail]; exact hb
    have hz : st.list.size = cs.length + 1 := hsize
    simp [hh, ht, hz]

theorem Represents.linkIntegrity {st : State} {cs : List Cell} (hr : Represents st cs) :
    LinkIntegrity st := by
  have hseg := hr.1
  refine ⟨?_, ?_, cs.map Prod.fst, hr.nodesFrom, ?_, ?_, hr.nodesBack⟩
  · intro a ha
    cases cs with
    | nil =>
      have : st.list.head = none := (seg_nil ..).1 hseg
      rw [this] at ha
      exact absurd ha (by simp)
    | cons c cs =>
      obtain ⟨hc, n, hn, hp, _, _⟩ := (seg_cons ..).1 hseg
      rw [hc] at ha
      cases ha
      exact ⟨n, hn, hp⟩
  · intro a ha
    rcases eq_nil_or_snoc cs with rfl | ⟨xs, c, rfl⟩
    · have : st.list.tail = none := hr.2.1
      rw [this] at ha
      exact absurd ha (by simp)
    · obtain ⟨_, n, hn, _, _, hnx⟩ := (seg_snoc ..).1 hseg
      rw [hr.tail_eq] at ha
      cases ha
      exact ⟨n, hn, hnx⟩
  · rw [hr.2.1, lastAddr_eq_getLast]
  · intro a ha
    obtain ⟨c, hc, rfl⟩ := List.mem_map.1 ha
    obtain ⟨xs, ys, rfl⟩ := List.append_of_mem hc
    obtain ⟨hpre, n, hn, hp, _, hys⟩ := (seg_split ..).1 hseg
    refine ⟨n, hn, ?_, ?_⟩
    · intro b hb
      cases ys with
      | nil =>
        have := (seg_nil ..).1 hys
        rw [this] at hb
        exact absurd hb (by simp)
      | cons d ds =>
        obtain ⟨hd, m, hm, hmp, _, _⟩ := (seg_cons ..).1 hys
        rw [hd] at hb
        cases hb
        exact ⟨m, hm, hmp⟩
    · intro b hb
      rw [hp] at hb
      rcases eq_nil_or_snoc xs with rfl | ⟨zs, q, rfl⟩
      · exact absurd hb (by simp [lastAddr])
      · rw [lastAddr_snoc] at hb
        cases hb
        obtain ⟨_, m, hm, _, _, hmn⟩ := (seg_snoc ..).1 hpre
        exact ⟨m, hm, hmn⟩

theorem Represents.new (h : Heap) (key : Value) :
    Represents { heap := h, list := NewLinkedList key } [] :=
  ⟨(seg_nil ..).2 rfl, rfl, by simp, rfl, by simp [NewLinkedList, uintMod]⟩

/-! ## Every returning call preserves well-formedness -/

theorem typeError_after {mk : GoType → GoError} {st st' : State}
    (h : (typeError mk st).after = some st') : st' = st := by
  unfold typeError at h
  cases hk : st.list.keyType with
  | none => simp [hk, Outcome.after] at h
  | some t =>
    simp only [hk, Outcome.after, Option.some.injEq] at h
    exact h.symm

theorem InsertBack_after {st st' : State} {key : Value} (hwf : WF st)
    (hfit : st.list.size + 1 < uintMod) (h : (InsertBack st key).after = some st') :
    WF st' := by
  obtain ⟨cs, hr⟩ := hwf
  by_cases hty : typeOf key = st.list.keyType
  · obtain ⟨st2, hrun, hrep, _⟩ := InsertBack_spec key hr hty (by rw [← hr.2.2.2.1]; exact hfit)
    simp only [hrun, Outcome.after, Option.some.injEq] at h
    exact h ▸ ⟨_, hrep⟩
  · have : InsertBack st key = typeError .expectedKeyType st := by
      unfold InsertBack
      rw [if_pos hty]
    rw [this] at h
    exact typeError_after h ▸ ⟨cs, hr⟩

theorem InsertFront_after {st st' : State} {key : Value} (hwf : WF st)
    (hfit : st.list.size + 1 < uintMod) (h : (InsertFront st key).after = some st') :
    WF st' := by
  obtain ⟨cs, hr⟩ := hwf
  by_cases hty : typeOf key = st.list.keyType
  · obtain ⟨st2, hrun, hrep, _⟩ := InsertFront_spec key hr hty (by rw [← hr.2.2.2.1]; exact hfit)
    simp only [hrun, Outcome.after, Option.some.injEq] at h
    exact h ▸ ⟨_, hrep⟩
  · have : InsertFront st key = typeError .expectedKeyType st := by
      unfold InsertFront
      rw [if_pos hty]
    rw [this] at h
    exact typeError_after h ▸ ⟨cs, hr⟩

theorem InsertAt_after {st st' : State} {index : Nat} {key : Value} (hwf : WF st)
    (hfit : st.list.size + 1 < uintMod) (h : (InsertAt st index key).after = some st') :
    WF st' := by
  obtain ⟨cs, hr⟩ := hwf
  by_cases hi : index > st.list.size
  · have : InsertAt st index key =
        .ret false (some (.indexOutOfRangeSize index st.list.size)) st := by
      unfold InsertAt
      rw [if_pos hi]
    simp only [this, Outcome.after, Option.some.injEq] at h
    exact h ▸ ⟨cs, hr⟩
  by_cases hty : typeOf key = st.list.keyType
  · obtain ⟨st2, hrun, hrep, _⟩ := InsertAt_spec index key hr
      (by rw [← hr.2.2.2.1]; omega) hty (by rw [← hr.2.2.2.1]; exact hfit)
    simp only [hrun, Outcome.after, Option.some.injEq] at h
    exact h ▸ ⟨_, hrep⟩
  · have : InsertAt st index key = typeError .expectedKeyType st := by
      unfold InsertAt
      rw [if_neg hi, if_pos hty]
    rw [this] at h
    exact typeError_after h ▸ ⟨cs, hr⟩

theorem RemoveBack_after {st st' : State} (hwf : WF st)
    (h : (RemoveBack st).after = some st') : WF st' := by
  obtain ⟨cs, hr⟩ := hwf
  rcases eq_nil_or_snoc cs with rfl | ⟨xs, c, rfl⟩
  · have h0 : st.list.size = 0 := hr.2.2.2.1
    simp only [RemoveBack, h0, if_true, Outcome.after, Option.some.injEq] at h
    exact h ▸ ⟨_, hr⟩
  · obtain ⟨st2, hrun, hrep, _⟩ := RemoveBack_spec hr
    simp only [hrun, Outcome.after, Option.some.injEq] at h
    exact h ▸ ⟨_, hrep⟩

theorem RemoveFront_after {st st' : State} (hwf : WF st)
    (h : (RemoveFront st).after = some st') : WF st' := by
  obtain ⟨cs, hr⟩ := hwf
  cases cs with
  | nil =>
    have h0 : st.list.size = 0 := hr.2.2.2.1
    simp only [RemoveFront, h0, if_true, Outcome.after, Option.some.injEq] at h
    exact h ▸ ⟨_, hr⟩
  | cons c cs =>
    obtain ⟨st2, hrun, hrep, _⟩ := RemoveFront_spec hr
    simp only [hrun, Outcome.after, Option.some.injEq] at h
    exact h ▸ ⟨_, hrep⟩

theorem RemoveAt_after {st st' : State} {index : Nat} (hwf : WF st)
    (h : (RemoveAt st index).after = some st') : WF st' := by
  obtain ⟨cs, hr⟩ := hwf
  by_cases hi : index ≥ st.list.size
  · have : RemoveAt st index = .ret .nil (some .indexOutOfRange) st := by
      unfold RemoveAt
      rw [if_pos hi]
    simp only [this, Outcome.after, Option.some.injEq] at h
    exact h ▸ ⟨cs, hr⟩
  · have hlt : index < cs.length := by rw [← hr.2.2.2.1]; omega
    obtain ⟨hsplit, hlen⟩ := split_at_index cs index hlt
    rw [hsplit] at hr
    obtain ⟨st2, hrun, hrep, _⟩ := RemoveAt_spec hr
    rw [hlen] at hrun
    simp only [hrun, Outcome.after, Option.some.injEq] at h
    exact h ▸ ⟨_, hrep⟩

theorem Remove_after {st st' : State} {fuel : Nat} {key : Value} (hwf : WF st)
    (h : (Remove fuel st key).after = some st') : WF st' := by
  obtain ⟨cs, hr⟩ := hwf
  cases hrun : Remove fuel st key with
  | panic => simp [hrun, Outcome.after] at h
  | timeout => simp [hrun, Outcome.after] at h
  | ret v e st2 =>
    simp only [hrun, Outcome.after, Option.some.injEq] at h
    subst h
    rcases Remove_ret hr hrun with ⟨hst, _, _⟩ | ⟨xs, c, ys, _, _, _, hrep, _⟩
    · exact hst ▸ ⟨cs, hr⟩
    · exact ⟨_, hrep⟩

theorem run_preserves {st st' : State} {op : Op} (hwf : WF st)
    (hfit : op.isInsert = true → st.list.size + 1 < uintMod)
    (h : op.run st = some st') : WF st' := by
  cases op with
  | insertBack key => exact InsertBack_after hwf (hfit rfl) h
  | insertFront key => exact InsertFront_after hwf (hfit rfl) h
  | insertAt index key => exact InsertAt_after hwf (hfit rfl) h
  | removeBack => exact RemoveBack_after hwf h
  | removeFront => exact RemoveFront_after hwf h
  | removeAt index => exact RemoveAt_after hwf h
  | remove fuel key => exact Remove_after hwf h

/-! ## The structural invariants -/

/-- C1 as amended. Size accounting is an invariant of well-formed lists: it
holds of the list returned by `NewLinkedList` (on any heap), and after every
returning call, successful or failed, of `InsertBack`, `InsertFront`,
`InsertAt`, `RemoveBack`, `RemoveFront`, `RemoveAt` and `Remove` on a
well-formed list the walk along `next` from `head` ends at nil after exactly
`size` nodes. An insert is assumed not to overflow the `uint` counter, which
holds of every list that fits a 64-bit address space. -/
theorem size_accounting_invariant :
    (∀ (h : Heap) (key : Value), SizeAccounting { heap := h, list := NewLinkedList key }) ∧
    (∀ (st st' : State) (op : Op), WF st →
      (op.isInsert = true → st.list.size + 1 < uintMod) →
      op.run st = some st' → SizeAccounting st') :=
  ⟨fun h key => (Represents.new h key).sizeAccounting,
    fun _ _ _ hwf hfit hrun =>
      let ⟨_, hr⟩ := run_preserves hwf hfit hrun
      hr.sizeAccounting⟩

/-- Witness of C1: `InsertAt(1, 7)` on the list `[0, 1, 2]`. -/
theorem size_accounting_invariant_witness :
    WF scenario ∧ (Op.insertAt 1 (.int 7)).run scenario = some scenarioInserted ∧
      SizeAccounting scenarioInserted :=
  ⟨⟨scenarioCells, by decide⟩, by decide,
    size_accounting_invariant.2 scenario scenarioInserted (.insertAt 1 (.int 7))
      ⟨scenarioCells, by decide⟩ (fun _ => by decide) (by decide)⟩

/-- Counterexample to C1 as stated: size accounting alone is not preserved. The
struct copy `l2 := *l` of the list `[10, 11]`, taken before `l.RemoveBack()` and
`l.InsertBack(12)`, satisfies size accounting (two nodes are reached from
`head`, `size` is 2) without being well formed, since its `tail` is the
unlinked node of `11`; `l2.InsertBack(13)` returns `(true, nil)`, hangs the new
node from that unlinked node and leaves `size` 3 with two nodes reached from
`head`. -/
theorem size_accounting_stale_copy :
    insertAll InsertBack [.int 10, .int 11] emptyInts = some pairInts ∧
    (Op.removeBack.run pairInts).bind (Op.insertBack (.int 12)).run = some pairIntsReplaced ∧
    staleSize = { heap := pairIntsReplaced.heap, list := pairInts.list } ∧
    SizeAccounting staleSize ∧
    typeOf (.int 13) = staleSize.list.keyType ∧
    InsertBack staleSize (.int 13) = .ret true none staleSizeInserted ∧
    (Op.insertBack (.int 13)).run staleSize = some staleSizeInserted ∧
    nodesFrom staleSizeInserted = some [0, 2] ∧
    staleSizeInserted.list.size = 3 ∧
    ¬ SizeAccounting staleSizeInserted ∧
    ¬ WF staleSize :=
  ⟨by decide, by decide, by decide, by decide, by decide, by decide, by decide, by decide,
    by decide, by decide,
    fun hwf =>
      let ⟨_, hr⟩ := @run_preserves staleSize staleSizeInserted (.insertBack (.int 13)) hwf
        (fun _ => by decide) (by decide)
      absurd hr.sizeAccounting (by decide)⟩

/-- C2 as amended. Emptiness agreement is an invariant of well-formed lists: it
holds of the list returned by `NewLinkedList`, and after every returning insert
or remove call on a well-formed list `head == nil` iff `tail == nil` iff
`size == 0`. An insert is assumed not to overflow the `uint` counter. -/
theorem emptiness_agreement_invariant :
    (∀ (h : Heap) (key : Value),
      EmptinessAgreement { heap := h, list := NewLinkedList key }) ∧
    (∀ (st st' : State) (op : Op), WF st →
      (op.isInsert = true → st.list.size + 1 < uintMod) →
      op.run st = some st' → EmptinessAgreement st') :=
  ⟨fun h key => (Represents.new h key).emptinessAgreement,
    fun _ _ _ hwf hfit hrun =>
      let ⟨_, hr⟩ := run_preserves hwf hfit hrun
      hr.emptinessAgreement⟩

/-- Witness of C2: the transitions empty, one element, empty by `InsertBack(1)`
and `RemoveBack()`. -/
theorem emptiness_agreement_invariant_witness :
    (WF emptyInts ∧ (Op.insertBack (.int 1)).run emptyInts = some singleInt ∧
      EmptinessAgreement singleInt) ∧
    (WF singleInt ∧ Op.removeBack.run singleInt = some singleIntEmptied ∧
      EmptinessAgreement singleIntEmptied) :=
  ⟨⟨⟨[], by decide⟩, by decide,
      emptiness_agreement_invariant.2 emptyInts singleInt (.insertBack (.int 1))
        ⟨[], by decide⟩ (fun _ => by decide) (by decide)⟩,
    ⟨⟨[(0, .int 1)], by decide⟩, by decide,
      emptiness_agreement_invariant.2 singleInt singleIntEmptied .removeBack
        ⟨[(0, .int 1)], by decide⟩ (fun h => by cases h) (by decide)⟩⟩

/-- Counterexample to C2 as stated: emptiness agreement alone is not preserved.
The struct copy `l2 := *l` of the list `[1]`, taken before `l.InsertBack(2)` and
`l.InsertBack(3)`, satisfies emptiness agreement (`head` and `tail` are the
node of `1`, `size` is 1) without being well formed, since two more nodes
follow its `tail`; `l2.Remove(2)` finds the key in the second node, which is
neither `head` nor `tail`, unlinks it along the interior path and returns
`(true, nil)` with `size` 0 while `head` and `tail` are not nil. -/
theorem emptiness_agreement_stale_copy :
    insertAll InsertBack [.int 2, .int 3] singleInt = some tripleInts ∧
    staleSingle = { heap := tripleInts.heap, list := singleInt.list } ∧
    EmptinessAgreement staleSingle ∧
    typeOf (.int 2) = staleSingle.list.keyType ∧
    Remove 3 staleSingle (.int 2) = .ret true none staleSingleRemoved ∧
    (Op.remove 3 (.int 2)).run staleSingle = some staleSingleRemoved ∧
    staleSingleRemoved.list.size = 0 ∧
    staleSingleRemoved.list.head = some 0 ∧
    staleSingleRemoved.list.tail = some 0 ∧
    ¬ EmptinessAgreement staleSingleRemoved ∧
    ¬ WF staleSingle :=
  ⟨by decide, by decide, by decide, by decide, by decide, by decide, by decide, by decide,
    by decide, by decide,
    fun hwf =>
      let ⟨_, hr⟩ := @run_preserves staleSingle staleSingleRemoved (.remove 3 (.int 2)) hwf
        (fun h => by cases h) (by decide)
      absurd hr.emptinessAgreement (by decide)⟩

/-- C3. Bidirectional link integrity is an invariant: after every returning
insert or remove call on a well-formed list, `head.prev` and `tail.next` are
nil, `tail` is the last node reached from `head` along `next`, every node `n`
reached has `n.next.prev == n` and `n.prev.next == n` whenever the inner link is
not nil, and the walk along `prev` from `tail` visits the forward sequence
reversed. -/
theorem link_integrity_invariant (st st' : State) (op : Op) (hwf : WF st)
    (hfit : op.isInsert = true → st.list.size + 1 < uintMod)
    (hrun : op.run st = some st') : LinkIntegrity st' :=
  let ⟨_, hr⟩ := run_preserves hwf hfit hrun
  hr.linkIntegrity

/-- Witness of C3: `RemoveAt(1)` on the list `[0, 1, 2]`. -/
theorem link_integrity_invariant_witness :
    WF scenario ∧ (Op.removeAt 1).run scenario = some scenarioRemoved ∧
      LinkIntegrity scenarioRemoved :=
  ⟨⟨scenarioCells, by decide⟩, by decide,
    link_integrity_invariant scenario scenarioRemoved (.removeAt 1)
      ⟨scenarioCells, by decide⟩ (fun h => by cases h) (by decide)⟩

/-! ## Functional behaviour of the inserts -/

theorem insert_positions {α : Type} (s : List α) (i : Nat) (x : α) (hi : i ≤ s.length) :
    (s.take i ++ [x] ++ s.drop i)[i]? = some x ∧
    (∀ j, j < i → (s.take i ++ [x] ++ s.drop i)[j]? = s[j]?) ∧
    (∀ j, i ≤ j → (s.take i ++ [x] ++ s.drop i)[j + 1]? = s[j]?) := by
  have hlen : (s.take i).length = i := by simp [Nat.min_eq_left hi]
  refine ⟨?_, ?_, ?_⟩
  · rw [List.append_assoc, List.getElem?_append_right (by omega), hlen]
    simp
  · intro j hj
    rw [List.append_assoc, List.getElem?_append_left (by omega), List.getElem?_take]
    simp [hj]
  · intro j hj
    rw [List.append_assoc, List.getElem?_append_right (by omega), hlen]
    have : j + 1 - i = (j - i) + 1 := by omega
    rw [this]
    simp only [List.singleton_append, List.getElem?_cons_succ, List.getElem?_drop]
    congr 1
    omega

/-- C4. On a well-formed list with key sequence `s`, a key `x` of the list's
`keyType` is inserted by `InsertBack(x)`, which returns `(true, nil)` and leaves
`s ++ [x]` with size `|s|+1`, and by `InsertFront(x)`, which returns
`(true, nil)` and leaves `[x] ++ s` with size `|s|+1`; when `s` is empty the new
node is both `head` and `tail`. The size counter is assumed not to overflow. -/
theorem insert_ends_sequence (st : State) (s : List Value) (x : Value)
    (hm : Models st s) (hty : typeOf x = st.list.keyType)
    (hfit : s.length + 1 < uintMod) :
    (∃ st', InsertBack st x = .ret true none st' ∧ Models st' (s ++ [x]) ∧
      keysFrom st' = some (s ++ [x]) ∧ st'.list.size = s.length + 1 ∧
      (s = [] → ∃ a n, st'.list.head = some a ∧ st'.list.tail = some a ∧
        st'.heap[a]? = some n ∧ n.key = x ∧ n.prev = none ∧ n.next = none)) ∧
    (∃ st', InsertFront st x = .ret true none st' ∧ Models st' ([x] ++ s) ∧
      keysFrom st' = some ([x] ++ s) ∧ st'.list.size = s.length + 1 ∧
      (s = [] → ∃ a n, st'.list.head = some a ∧ st'.list.tail = some a ∧
        st'.heap[a]? = some n ∧ n.key = x ∧ n.prev = none ∧ n.next = none)) := by
  obtain ⟨cs, hr, rfl⟩ := hm
  have hfit2 : cs.length + 1 < uintMod := by simpa using hfit
  have single : ∀ (st' : State) (a : Nat), Represents st' [(a, x)] →
      ∃ a n, st'.list.head = some a ∧ st'.list.tail = some a ∧
        st'.heap[a]? = some n ∧ n.key = x ∧ n.prev = none ∧ n.next = none := by
    intro st' a hrep
    obtain ⟨hh, n, hn, hp, hk, hrest⟩ := (seg_cons ..).1 hrep.1
    exact ⟨a, n, hh, hrep.2.1, hn, hk, hp, (seg_nil ..).1 hrest⟩
  constructor
  · obtain ⟨st', hrun, hrep, _⟩ := InsertBack_spec x hr hty hfit2
    have hmod : Models st' (cs.map Prod.snd ++ [x]) := ⟨_, hrep, by simp⟩
    refine ⟨st', hrun, hmod, hmod.keys_eq, by simpa using hmod.size_eq, ?_⟩
    intro he
    have hnil : cs = [] := by simpa using he
    subst hnil
    exact single st' _ hrep
  · obtain ⟨st', hrun, hrep, _⟩ := InsertFront_spec x hr hty hfit2
    have hmod : Models st' ([x] ++ cs.map Prod.snd) := ⟨_, hrep, by simp⟩
    refine ⟨st', hrun, hmod, hmod.keys_eq, by simpa using hmod.size_eq, ?_⟩
    intro he
    have hnil : cs = [] := by simpa using he
    subst hnil
    exact single st' _ hrep

/-- Witness of C4: inserting `7` at either end of the list `[0, 1, 2]`. -/
theorem insert_ends_sequence_witness :
    Models scenario [.int 0, .int 1, .int 2] ∧
    typeOf (.int 7) = scenario.list.keyType ∧
    (∃ st', InsertBack scenario (.int 7) = .ret true none st' ∧
      Models st' [.int 0, .int 1, .int 2, .int 7]) ∧
    (∃ st', InsertFront scenario (.int 7) = .ret true none st' ∧
      Models st' [.int 7, .int 0, .int 1, .int 2]) :=
  have hm : Models scenario [.int 0, .int 1, .int 2] := ⟨scenarioCells, by decide, by decide⟩
  have h := insert_ends_sequence scenario [.int 0, .int 1, .int 2] (.int 7) hm (by decide)
    (by decide)
  ⟨hm, by decide,
    let ⟨st', h1, h2, _⟩ := h.1
    ⟨st', h1, h2⟩,
    let ⟨st', h1, h2, _⟩ := h.2
    ⟨st', h1, h2⟩⟩

/-- C5. On a well-formed list with key sequence `s`, for every index
`0 <= i <= |s|` and key `x` of the list's `keyType`, `InsertAt(i, x)` returns
`(true, nil)` and leaves the sequence `take i s ++ [x] ++ drop i s`: `x` is at
position `i`, the elements before `i` keep their positions and those from `i`
on move one position up. The index ranges over the head delegation (`i = 0`),
the tail delegation (`i = |s|`) and both traversal directions. -/
theorem insertAt_sequence (st : State) (s : List Value) (i : Nat) (x : Value)
    (hm : Models st s) (hi : i ≤ s.length) (hty : typeOf x = st.list.keyType)
    (hfit : s.length + 1 < uintMod) :
    ∃ st', InsertAt st i x = .ret true none st' ∧
      Models st' (s.take i ++ [x] ++ s.drop i) ∧
      keysFrom st' = some (s.take i ++ [x] ++ s.drop i) ∧
      st'.list.size = s.length + 1 ∧
      (s.take i ++ [x] ++ s.drop i)[i]? = some x ∧
      (∀ j, j < i → (s.take i ++ [x] ++ s.drop i)[j]? = s[j]?) ∧
      (∀ j, i ≤ j → (s.take i ++ [x] ++ s.drop i)[j + 1]? = s[j]?) := by
  obtain ⟨hp1, hp2, hp3⟩ := insert_positions s i x hi
  obtain ⟨cs, hr, rfl⟩ := hm
  obtain ⟨st', hrun, hrep, _⟩ := InsertAt_spec i x hr (by simpa using hi) hty
    (by simpa using hfit)
  have hmod : Models st' ((cs.map Prod.snd).take i ++ [x] ++ (cs.map Prod.snd).drop i) :=
    ⟨_, hrep, by simp [List.map_take, List.map_drop]⟩
  refine ⟨st', hrun, hmod, hmod.keys_eq, ?_, hp1, hp2, hp3⟩
  rw [hmod.size_eq]
  simp only [List.length_append, List.length_take, List.length_drop, List.length_map,
    List.length_singleton]
  simp only [List.length_map] at hi
  omega

/-- Witness of C5: `InsertAt(2, 7)` on the list `[0, 1, 2]`, an interior index
reached from the tail. -/
theorem insertAt_sequence_witness :
    Models scenario [.int 0, .int 1, .int 2] ∧ 2 ≤ [Value.int 0, .int 1, .int 2].length ∧
    typeOf (.int 7) = scenario.list.keyType ∧
    ∃ st', InsertAt scenario 2 (.int 7) = .ret true none st' ∧
      Models st' [.int 0, .int 1, .int 7, .int 2] :=
  have hm : Models scenario [.int 0, .int 1, .int 2] := ⟨scenarioCells, by decide, by decide⟩
  have h := insertAt_sequence scenario [.int 0, .int 1, .int 2] 2 (.int 7) hm (by decide)
    (by decide) (by decide)
  ⟨hm, by decide, by decide,
    let ⟨st', h1, h2, _⟩ := h
    ⟨st', h1, h2⟩⟩

/-- C6. Round trip: on a well-formed list, for every index `0 <= i <= size`
(the size before the insertion) and key `x` of the list's `keyType`,
`InsertAt(i, x)` followed by `At(i)` returns `(x, nil)`. -/
theorem insertAt_at_roundtrip (st : State) (i : Nat) (x : Value)
    (hwf : WF st) (hi : i ≤ st.list.size) (hty : typeOf x = st.list.keyType)
    (hfit : st.list.size + 1 < uintMod) :
    ∃ st', InsertAt st i x = .ret true none st' ∧ At st' i = .ret x none st' := by
  obtain ⟨cs, hr⟩ := hwf
  have hsize : st.list.size = cs.length := hr.2.2.2.1
  have hi2 : i ≤ cs.length := by omega
  obtain ⟨st', hrun, hrep, _⟩ := InsertAt_spec i x hr hi2 hty (by omega)
  refine ⟨st', hrun, ?_⟩
  have := At_spec hrep
  rwa [List.length_take, Nat.min_eq_left hi2] at this

/-- Witness of C6: `InsertAt(3, 7)` then `At(3)` on the list `[0, 1, 2]`. -/
theorem insertAt_at_roundtrip_witness :
    WF scenario ∧ 3 ≤ scenario.list.size ∧ typeOf (.int 7) = scenario.list.keyType ∧
    ∃ st', InsertAt scenario 3 (.int 7) = .ret true none st' ∧
      At st' 3 = .ret (.int 7) none st' :=
  ⟨⟨scenarioCells, by decide⟩, by decide, by decide,
    insertAt_at_roundtrip scenario 3 (.int 7) ⟨scenarioCells, by decide⟩ (by decide)
      (by decide) (by decide)⟩

/-! ## Functional behaviour of the reads -/

/-- C7. On a well-formed list with key sequence `s`, for every index
`i < |s|`, `At(i)` returns `(s[i], nil)` and leaves the list as it is. The node
the nearer-end traversal locates is the node a forward walk of `i` steps from
`head` reaches, and also the node a backward walk of `|s|-i-1` steps from
`tail` reaches, and it holds `s[i]`. -/
theorem at_returns_key (st : State) (s : List Value) (i : Nat)
    (hm : Models st s) (hi : i < s.length) :
    At st i = .ret s[i] none st ∧
    ∃ c n, st.heap[c]? = some n ∧ n.key = s[i] ∧
      locate st i = some (some c) ∧
      stepsNext st.heap i st.list.head = some (some c) ∧
      stepsPrev st.heap (s.length - i - 1) st.list.tail = some (some c) := by
  obtain ⟨cs, hr, rfl⟩ := hm
  have hi2 : i < cs.length := by simpa using hi
  obtain ⟨hsplit, hlen⟩ := split_at_index cs i hi2
  have hkey : (cs.map Prod.snd)[i] = cs[i].2 := by simp
  have hr2 : Represents st (cs.take i ++ cs[i] :: cs.drop (i + 1)) := by
    rw [← hsplit]; exact hr
  obtain ⟨_, n, hn, _, hk, _⟩ := (seg_split ..).1 hr2.1
  have hat := At_spec hr2
  have hloc := locate_spec hr2
  have hfw := stepsNext_seg hr2.1
  have hbw := stepsPrev_seg hr2.1
  rw [hlen] at hat hloc hfw
  rw [← hr2.2.1] at hbw
  have hdl : (cs.drop (i + 1)).length = (cs.map Prod.snd).length - i - 1 := by
    simp only [List.length_drop, List.length_map]; omega
  rw [hdl] at hbw
  rw [hkey]
  exact ⟨hat, cs[i].1, n, hn, hk, hloc, hfw, hbw⟩

/-- Witness of C7: `At(0)` and `At(2)` on the list `[0, 1, 2]`, the first read
from the head side and the second from the tail side. -/
theorem at_returns_key_witness :
    Models scenario [.int 0, .int 1, .int 2] ∧
    At scenario 0 = .ret (.int 0) none scenario ∧
    At scenario 2 = .ret (.int 2) none scenario :=
  have hm : Models scenario [.int 0, .int 1, .int 2] := ⟨scenarioCells, by decide, by decide⟩
  ⟨hm, (at_returns_key scenario [.int 0, .int 1, .int 2] 0 hm (by decide)).1,
    (at_returns_key scenario [.int 0, .int 1, .int 2] 2 hm (by decide)).1⟩

/-- The cell at index `i` of a chain, when `==` is false on every key before
it. -/
theorem cells_match_split (cs : List Cell) (t : Value) (i : Nat) (v : Value)
    (hv : (cs.map Prod.snd)[i]? = some v)
    (hprev : ∀ j w, j < i → (cs.map Prod.snd)[j]? = some w → ifaceEq w t = some false) :
    ∃ xs c ys, cs = xs ++ c :: ys ∧ xs.length = i ∧ c.2 = v ∧
      ∀ d ∈ xs, ifaceEq d.2 t = some false := by
  induction cs generalizing i with
  | nil => simp at hv
  | cons d ds ih =>
    cases i with
    | zero =>
      refine ⟨[], d, ds, rfl, rfl, ?_, by simp⟩
      simpa using hv
    | succ n =>
      have hv2 : (ds.map Prod.snd)[n]? = some v := by simpa using hv
      obtain ⟨xs, c, ys, he, hl, hc, hne⟩ := ih n hv2 (fun j w hj hw =>
        hprev (j + 1) w (by omega) (by simpa using hw))
      refine ⟨d :: xs, c, ys, by simp [he], by simp [hl], hc, ?_⟩
      intro e hm
      rcases List.mem_cons.1 hm with rfl | hm
      · exact hprev 0 e.2 (by omega) (by simp)
      · exact hne e hm

theorem cells_first_split (cs : List Cell) (t : Value) (h : t ∈ cs.map Prod.snd) :
    ∃ xs c ys, cs = xs ++ c :: ys ∧ c.2 = t ∧ ∀ d ∈ xs, d.2 ≠ t := by
  induction cs with
  | nil => simp at h
  | cons d ds ih =>
    by_cases hd : d.2 = t
    · exact ⟨[], d, ds, rfl, hd, by simp⟩
    · have h2 : t ∈ ds.map Prod.snd := by
        simp only [List.map_cons, List.mem_cons] at h
        rcases h with h | h
        · exact absurd h.symm hd
        · exact h
      obtain ⟨xs, c, ys, he, hc, hne⟩ := ih h2
      refine ⟨d :: xs, c, ys, by simp [he], hc, ?_⟩
      intro e hm
      rcases List.mem_cons.1 hm with rfl | hm
      · exact hd
      · exact hne e hm

theorem IndexOf_ret {st st' : State} {fuel : Nat} {t : Value} {v : Nat}
    {e : Option GoError} (h : IndexOf fuel st t = .ret v e st') : st' = st := by
  unfold IndexOf at h
  repeat' (first | split at h | dsimp only at h)
  all_goals
    first
    | (simp at h; done)
    | (simp only [Outcome.ret.injEq] at h; exact h.2.2.symm)

/-- The search of `IndexOf` stops at the first cell whose key compares equal. -/
theorem IndexOf_found {st : State} {xs ys : List Cell} {c : Cell} {fuel : Nat} {t : Value}
    (hr : Represents st (xs ++ c :: ys)) (hty : typeOf t = st.list.keyType)
    (hne : ∀ d ∈ xs, ifaceEq d.2 t = some false) (heq : ifaceEq c.2 t = some true)
    (hf : xs.length < fuel) : IndexOf fuel st t = .ret xs.length none st := by
  have hsize : st.list.size = (xs ++ c :: ys).length := hr.2.2.2.1
  have h0 : ¬ st.list.size = 0 := by rw [hsize]; simp
  have hc : (typeOf t ≠ st.list.keyType) = False := eq_false (not_not.2 hty)
  have hlt : 0 + xs.length < uintMod := by
    have := hr.2.2.2.2
    rw [hsize] at this
    simp only [List.length_append, List.length_cons] at this
    omega
  have hscan := scan_found hr.1 hne heq fuel 0 hf hlt
  simp only [IndexOf, h0, hc, hscan, if_false, Nat.zero_add]

/-- The search of `IndexOf` fails when no key compares equal. -/
theorem IndexOf_notFound {st : State} {cs : List Cell} {fuel : Nat} {t : Value}
    (hr : Represents st cs) (hcs : cs ≠ []) (hty : typeOf t = st.list.keyType)
    (hne : ∀ d ∈ cs, ifaceEq d.2 t = some false) (hf : cs.length ≤ fuel) :
    IndexOf fuel st t = .ret st.list.size (some .keyNotFound) st := by
  have hsize : st.list.size = cs.length := hr.2.2.2.1
  have h0 : ¬ st.list.size = 0 := by
    rw [hsize]
    intro h
    exact hcs (List.length_eq_zero.1 h)
  have hc : (typeOf t ≠ st.list.keyType) = False := eq_false (not_not.2 hty)
  have hscan := scan_notFound hr.1 hne fuel 0 hf
  simp only [IndexOf, h0, hc, hscan, if_false]

/-- C8 as amended. On a well-formed non-empty list with key sequence `s`, for
every key `t` of the list's `keyType` and enough fuel for the search loop: if
`s[i] == t` is true at an index `i` and `s[j] == t` is false, without panic, at
every `j < i`, `IndexOf(t)` returns `(i, nil)`; if `s[j] == t` is false at every
index, it returns `(size, "Key not found")`. When `t` is the nil interface, an
integer, a string or a boolean, `==` against `t` is identity, so that
`IndexOf(t)` returns `(i, nil)` with `i` the least index at which `t` occurs if
it occurs in `s`, and `(size, "Key not found")` if it does not. The list is
left as it is by every returning call. -/
theorem indexOf_first_occurrence (st : State) (s : List Value) (t : Value) (fuel : Nat)
    (hm : Models st s) (hne : s ≠ []) (hty : typeOf t = st.list.keyType)
    (hf : s.length ≤ fuel) :
    (∀ i v, s[i]? = some v → ifaceEq v t = some true →
      (∀ j w, j < i → s[j]? = some w → ifaceEq w t = some false) →
      IndexOf fuel st t = .ret i none st) ∧
    ((∀ v ∈ s, ifaceEq v t = some false) →
      IndexOf fuel st t = .ret st.list.size (some .keyNotFound) st) ∧
    (isPlain t = true →
      (t ∈ s → ∃ i, IndexOf fuel st t = .ret i none st ∧ s[i]? = some t ∧
        ∀ j, j < i → s[j]? ≠ some t) ∧
      (t ∉ s → IndexOf fuel st t = .ret st.list.size (some .keyNotFound) st)) ∧
    (∀ i e st', IndexOf fuel st t = .ret i e st' → st' = st) := by
  obtain ⟨cs, hr, rfl⟩ := hm
  have hcs : cs ≠ [] := fun h => hne (by simp [h])
  have hfc : cs.length ≤ fuel := by simpa using hf
  refine ⟨?_, ?_, ?_, fun _ _ _ h => IndexOf_ret h⟩
  · intro i v hv htrue hprev
    obtain ⟨xs, c, ys, hsplit, hlen, hcv, hxs⟩ := cells_match_split cs t i v hv hprev
    subst hsplit
    have hlt : xs.length < fuel := by
      simp only [List.length_append, List.length_cons] at hfc
      omega
    rw [← hlen]
    exact IndexOf_found hr hty hxs (hcv ▸ htrue) hlt
  · intro hall
    exact IndexOf_notFound hr hcs hty
      (fun d hd => hall d.2 (List.mem_map_of_mem Prod.snd hd)) hfc
  · intro hp
    have heq : ∀ v : Value, ifaceEq v t = some (decide (v = t)) := fun v => ifaceEq_plain hp
    constructor
    · intro hmem
      obtain ⟨xs, c, ys, hsplit, hct, hxs⟩ := cells_first_split cs t hmem
      subst hsplit
      have hlt : xs.length < fuel := by
        simp only [List.length_append, List.length_cons] at hfc
        omega
      refine ⟨xs.length, ?_, ?_, ?_⟩
      · exact IndexOf_found hr hty (fun d hd => by rw [heq]; simp [hxs d hd])
          (by rw [heq]; simp [hct]) hlt
      · rw [List.map_append, List.getElem?_append_right (by simp)]
        simp [hct]
      · intro j hj
        rw [List.map_append, List.getElem?_append_left (by simpa using hj)]
        rw [List.getElem?_map]
        intro h
        obtain ⟨d, hd, hdt⟩ := Option.map_eq_some'.1 h
        exact hxs d (List.getElem?_mem hd) hdt
    · intro hmem
      exact IndexOf_notFound hr hcs hty (fun d hd => by
        rw [heq]
        have : d.2 ≠ t := fun e => hmem (e ▸ List.mem_map_of_mem Prod.snd hd)
        simp [this]) hfc

/-- Witness of the amended C8: `IndexOf(2)` finds index 2 in `[0, 1, 2]` and
`IndexOf(9)` reports that the key is not found. -/
theorem indexOf_first_occurrence_witness :
    Models scenario [.int 0, .int 1, .int 2] ∧
    IndexOf 3 scenario (.int 2) = .ret 2 none scenario ∧
    (∃ i, IndexOf 3 scenario (.int 2) = .ret i none scenario ∧
      [Value.int 0, .int 1, .int 2][i]? = some (.int 2)) ∧
    IndexOf 3 scenario (.int 9) = .ret scenario.list.size (some .keyNotFound) scenario :=
  have hm : Models scenario [.int 0, .int 1, .int 2] := ⟨scenarioCells, by decide, by decide⟩
  have h2 := indexOf_first_occurrence scenario [.int 0, .int 1, .int 2] (.int 2) 3 hm
    (by decide) (by decide) (by decide)
  have h9 := indexOf_first_occurrence scenario [.int 0, .int 1, .int 2] (.int 9) 3 hm
    (by decide) (by decide) (by decide)
  ⟨hm,
    h2.1 2 (.int 2) (by decide) (by decide) (fun j w hj hw => by
      have hcases : j = 0 ∨ j = 1 := by omega
      rcases hcases with rfl | rfl <;> simp at hw <;> subst hw <;> rfl),
    let ⟨i, h1, h3, _⟩ := (h2.2.2.1 (by decide)).1 (by decide)
    ⟨i, h1, h3⟩,
    h9.2.1 (by decide)⟩

/-- Counterexample to C8 as stated, on three well-formed one-element lists whose
key `t` is of the list's `keyType` and occurs in the list. On `[[1]]`, a list
of integer slices, `IndexOf([1])` panics at the comparison `current.key == t`,
however much fuel the loop is given. On `[NaN]`, of the comparable type
`float64`, `IndexOf(NaN)` returns `(1, "Key not found")`, since NaN is not equal
to itself. On the list of the struct `struct{ v interface{} }{[]int{1}}`, of a
comparable struct type, `IndexOf` of that struct panics, since the values the
fields hold are not comparable. -/
theorem indexOf_key_counterexample :
    (Models sliceList [.ints [1]] ∧ sliceList.list.size ≠ 0 ∧
      typeOf (.ints [1]) = sliceList.list.keyType ∧
      Value.ints [1] ∈ [Value.ints [1]] ∧
      IndexOf 2 sliceList (.ints [1]) = .panic ∧
      ∀ fuel, ¬ ∃ i, IndexOf fuel sliceList (.ints [1]) = .ret i none sliceList) ∧
    (Models nanList [.nan] ∧ nanList.list.size ≠ 0 ∧
      typeOf .nan = nanList.list.keyType ∧ comparable .float64 = true ∧
      Value.nan ∈ [Value.nan] ∧
      IndexOf 2 nanList .nan = .ret 1 (some .keyNotFound) nanList) ∧
    (Models boxList [.boxed (.ints [1])] ∧ boxList.list.size ≠ 0 ∧
      typeOf (.boxed (.ints [1])) = boxList.list.keyType ∧ comparable .box = true ∧
      Value.boxed (.ints [1]) ∈ [Value.boxed (.ints [1])] ∧
      IndexOf 2 boxList (.boxed (.ints [1])) = .panic) :=
  ⟨⟨⟨[(0, .ints [1])], by decide, by decide⟩, by decide, by decide, by decide, by decide,
      fun fuel => by
        cases fuel with
        | zero => simp [IndexOf, sliceList, typeOf, scan]
        | succ f => simp [IndexOf, sliceList, typeOf, scan, ifaceEq]⟩,
    ⟨⟨[(0, .nan)], by decide, by decide⟩, by decide, by decide, by decide, by decide,
      by decide⟩,
    ⟨⟨[(0, .boxed (.ints [1]))], by decide, by decide⟩, by decide, by decide, by decide,
      by decide, by decide⟩⟩

/-! ## Functional behaviour of the removals -/

theorem Models.nil_ends {st : State} (hm : Models st []) :
    st.list.head = none ∧ st.list.tail = none := by
  obtain ⟨cs, hr, he⟩ := hm
  have hnil : cs = [] := by simpa using he
  subst hnil
  exact ⟨(seg_nil ..).1 hr.1, hr.2.1⟩

/-- C9. On a well-formed list with key sequence `s`: when `s` is empty,
`RemoveBack` and `RemoveFront` each return the error "List is empty" and leave
the list as it is; when `s` is not empty, `RemoveBack` returns
`(last of s, nil)` and leaves `s` without its last element, `RemoveFront`
returns `(first of s, nil)` and leaves `s` without its first element, each with
the size decreased by exactly 1 and with `head` and `tail` nil when `|s|` was
1. -/
theorem remove_ends_sequence (st : State) (s : List Value) (hm : Models st s) :
    (s = [] →
      RemoveBack st = .ret .nil (some .listIsEmpty) st ∧
      RemoveFront st = .ret (.bool false) (some .listIsEmpty) st) ∧
    (∀ hne : s ≠ [],
      (∃ st', RemoveBack st = .ret (s.getLast hne) none st' ∧ Models st' s.dropLast ∧
        keysFrom st' = some s.dropLast ∧ st'.list.size + 1 = s.length ∧
        (s.length = 1 → st'.list.head = none ∧ st'.list.tail = none)) ∧
      (∃ st', RemoveFront st = .ret (s.head hne) none st' ∧ Models st' s.tail ∧
        keysFrom st' = some s.tail ∧ st'.list.size + 1 = s.length ∧
        (s.length = 1 → st'.list.head = none ∧ st'.list.tail = none))) := by
  obtain ⟨cs, hr, rfl⟩ := hm
  constructor
  · intro he
    have hnil : cs = [] := by simpa using he
    subst hnil
    have h0 : st.list.size = 0 := hr.2.2.2.1
    simp only [RemoveBack, RemoveFront, h0, if_true, and_self]
  · intro hne
    constructor
    · rcases eq_nil_or_snoc cs with rfl | ⟨xs, c, rfl⟩
      · exact absurd rfl hne
      obtain ⟨st', hrun, hrep, _⟩ := RemoveBack_spec hr
      have hmod : Models st' (xs.map Prod.snd) := ⟨xs, hrep, rfl⟩
      have hdl : (List.map Prod.snd (xs ++ [c])).dropLast = xs.map Prod.snd := by simp
      have hgl : (List.map Prod.snd (xs ++ [c])).getLast hne = c.2 := by simp
      rw [hdl, hgl]
      refine ⟨st', hrun, hmod, hmod.keys_eq, by simp [hmod.size_eq], ?_⟩
      intro h1
      have hx : xs = [] := by
        simp only [List.map_append, List.length_append, List.length_map, List.length_cons,
          List.length_nil, List.map_cons, List.map_nil] at h1
        exact List.length_eq_zero.1 (by omega)
      subst hx
      exact hmod.nil_ends
    · cases cs with
      | nil => exact absurd rfl hne
      | cons c xs =>
        obtain ⟨st', hrun, hrep, _⟩ := RemoveFront_spec hr
        have hmod : Models st' (xs.map Prod.snd) := ⟨xs, hrep, rfl⟩
        refine ⟨st', by simpa using hrun, by simpa using hmod,
          by simpa using hmod.keys_eq, by simp [hmod.size_eq], ?_⟩
        intro h1
        have hx : xs = [] := by
          simp only [List.map_cons, List.length_cons, List.length_map] at h1
          exact List.length_eq_zero.1 (by omega)
        subst hx
        exact hmod.nil_ends

/-- Witness of C9: `RemoveBack` and `RemoveFront` on the empty list of integers
and on the list `[0, 1, 2]`. -/
theorem remove_ends_sequence_witness :
    Models emptyInts [] ∧ Models scenario [.int 0, .int 1, .int 2] ∧
    RemoveBack emptyInts = .ret .nil (some .listIsEmpty) emptyInts ∧
    (∃ st', RemoveBack scenario = .ret (.int 2) none st' ∧ Models st' [.int 0, .int 1]) ∧
    (∃ st', RemoveFront scenario = .ret (.int 0) none st' ∧ Models st' [.int 1, .int 2]) :=
  have he : Models emptyInts [] := ⟨[], by decide, by decide⟩
  have hm : Models scenario [.int 0, .int 1, .int 2] := ⟨scenarioCells, by decide, by decide⟩
  have h := (remove_ends_sequence scenario [.int 0, .int 1, .int 2] hm).2 (by decide)
  ⟨he, hm, ((remove_ends_sequence emptyInts [] he).1 rfl).1,
    let ⟨st', h1, h2, _⟩ := h.1
    ⟨st', h1, h2⟩,
    let ⟨st', h1, h2, _⟩ := h.2
    ⟨st', h1, h2⟩⟩

/-- C10. On a well-formed list with key sequence `s`, for every index
`i < |s|`, `RemoveAt(i)` returns `(s[i], nil)` and leaves `s` with the element
at position `i` erased, the others in their order, and size `|s|-1`. The index
ranges over the head delegation (`i = 0`), the tail delegation (`i = |s|-1`)
and both traversal directions. -/
theorem removeAt_sequence (st : State) (s : List Value) (i : Nat)
    (hm : Models st s) (hi : i < s.length) :
    ∃ st', RemoveAt st i = .ret s[i] none st' ∧ Models st' (s.eraseIdx i) ∧
      keysFrom st' = some (s.eraseIdx i) ∧ st'.list.size + 1 = s.length := by
  obtain ⟨cs, hr, rfl⟩ := hm
  have hi2 : i < cs.length := by simpa using hi
  obtain ⟨hsplit, hlen⟩ := split_at_index cs i hi2
  have hkey : (cs.map Prod.snd)[i] = cs[i].2 := by simp
  have hr2 : Represents st (cs.take i ++ cs[i] :: cs.drop (i + 1)) := by
    rw [← hsplit]; exact hr
  obtain ⟨st', hrun, hrep, _⟩ := RemoveAt_spec hr2
  rw [hlen] at hrun
  have hmod : Models st' ((cs.map Prod.snd).eraseIdx i) :=
    ⟨_, hrep, by
      rw [List.eraseIdx_eq_take_drop_succ]
      simp [List.map_take, List.map_drop]⟩
  rw [hkey]
  refine ⟨st', hrun, hmod, hmod.keys_eq, ?_⟩
  rw [hmod.size_eq, List.length_eraseIdx]
  simp only [List.length_map] at hi ⊢
  rw [if_pos hi2]
  omega

/-- Witness of C10: `RemoveAt(1)` on the list `[0, 1, 2]`. -/
theorem removeAt_sequence_witness :
    Models scenario [.int 0, .int 1, .int 2] ∧ 1 < [Value.int 0, .int 1, .int 2].length ∧
    ∃ st', RemoveAt scenario 1 = .ret (.int 1) none st' ∧ Models st' [.int 0, .int 2] :=
  have hm : Models scenario [.int 0, .int 1, .int 2] := ⟨scenarioCells, by decide, by decide⟩
  ⟨hm, by decide,
    let ⟨st', h1, h2, _⟩ := removeAt_sequence scenario [.int 0, .int 1, .int 2] 1 hm (by decide)
    ⟨st', h1, h2⟩⟩

/-! ## Removing by key: the forward direction -/

theorem Remove_spec {st : State} {xs ys : List Cell} {c : Cell} {fuel : Nat} {key : Value}
    (hr : Represents st (xs ++ c :: ys)) (hty : typeOf key = st.list.keyType)
    (hne : ∀ d ∈ xs, ifaceEq d.2 key = some false) (heq : ifaceEq c.2 key = some true)
    (hf : xs.length < fuel) :
    ∃ st', Remove fuel st key =
        .ret (if xs = [] ∨ ys = [] then decide (c.2 ≠ Value.nil) else true) none st' ∧
      Represents st' (xs ++ ys) ∧ st'.list.keyType = st.list.keyType := by
  have hsize : st.list.size = (xs ++ c :: ys).length := hr.2.2.2.1
  have h0 : ¬ st.list.size = 0 := by rw [hsize]; simp
  have hc : (typeOf key ≠ st.list.keyType) = False := eq_false (not_not.2 hty)
  have hlt : 0 + xs.length < uintMod := by
    have := hr.2.2.2.2
    rw [hsize] at this
    simp only [List.length_append, List.length_cons] at this
    omega
  have hscan := scan_found hr.1 hne heq fuel 0 hf hlt
  obtain ⟨hinjx, hinjy⟩ := hr.addr_inj
  simp only [Remove, h0, hc, hscan, if_false]
  by_cases hx : xs = []
  · subst hx
    have hh : some c.1 = st.list.head := hr.head_eq.symm
    obtain ⟨st2, hrf, hrep, hkt⟩ := RemoveFront_spec hr
    simp only [hh, if_true, hrf, viaRemoved, true_or]
    exact ⟨st2, rfl, hrep, hkt⟩
  obtain ⟨x, xs', rfl⟩ := List.exists_cons_of_ne_nil hx
  have hh : ¬ some c.1 = st.list.head := by
    have : st.list.head = some x.1 := hr.head_eq
    rw [this]
    intro e
    exact hinjx x (by simp) (Option.some.inj e).symm
  simp only [hh, if_false]
  by_cases hy : ys = []
  · subst hy
    have ht : some c.1 = st.list.tail := hr.tail_eq.symm
    obtain ⟨st2, hrb, hrep, hkt⟩ := RemoveBack_spec hr
    simp only [ht, if_true, hrb, viaRemoved, or_true]
    exact ⟨st2, rfl, by simpa using hrep, hkt⟩
  obtain ⟨ws, y, rfl⟩ := (eq_nil_or_snoc ys).resolve_left hy
  have ht : ¬ some c.1 = st.list.tail := by
    have hr2 : Represents st (((x :: xs') ++ c :: ws) ++ [y]) := by simpa using hr
    have : st.list.tail = some y.1 := hr2.tail_eq
    rw [this]
    intro e
    exact hinjy y (by simp) (Option.some.inj e).symm
  obtain ⟨zs, q, hzq⟩ := (eq_nil_or_snoc (x :: xs')).resolve_left (by simp)
  obtain ⟨d, ws', hdw⟩ := List.exists_cons_of_ne_nil hy
  have hr2 : Represents st (zs ++ q :: c :: d :: ws') := by
    have := hr
    rw [hzq, hdw] at this
    simpa using this
  obtain ⟨h2, hun, _, hrep⟩ := unlink_represents hr2
  simp only [ht, if_false, hun, hx, hy, or_self]
  refine ⟨_, rfl, ?_, rfl⟩
  rw [hzq, hdw]
  simpa using hrep

theorem eraseIdx_mid {α : Type} (xs ys : List α) (c : α) :
    (xs ++ c :: ys).eraseIdx xs.length = xs ++ ys := by
  induction xs with
  | nil => rfl
  | cons x xs ih => simp [List.eraseIdx, ih]

/-- The search of `Remove` fails when no key compares equal. -/
theorem Remove_notFound {st : State} {cs : List Cell} {fuel : Nat} {key : Value}
    (hr : Represents st cs) (hcs : cs ≠ []) (hty : typeOf key = st.list.keyType)
    (hne : ∀ d ∈ cs, ifaceEq d.2 key = some false) (hf : cs.length ≤ fuel) :
    Remove fuel st key = .ret false (some .keyNotFound) st := by
  have hsize : st.list.size = cs.length := hr.2.2.2.1
  have h0 : ¬ st.list.size = 0 := by
    rw [hsize]
    intro h
    exact hcs (List.length_eq_zero.1 h)
  have hc : (typeOf key ≠ st.list.keyType) = False := eq_false (not_not.2 hty)
  have hscan := scan_notFound hr.1 hne fuel 0 hf
  simp only [Remove, h0, hc, hscan, if_false]

/-- C11 as amended. On a well-formed list with key sequence `s`, for every key
`k` of the list's `keyType` and enough fuel for the search loop: if `s` is
empty, `Remove(k)` returns `(false, "List is empty")`; if `s[i] == k` is true at
an index `i` and `s[j] == k` is false, without panic, at every `j < i`,
`Remove(k)` returns with a nil error and leaves `s` with only the element at `i`
erased and size `|s|-1`, wherever `i` is, and the boolean returned is `true`
when `k` is not the nil interface value; if `s` is not empty and `s[j] == k` is
false at every index, `Remove(k)` returns `(false, "Key not found")` and leaves
the list as it is. Of every returning call: a `true` result comes with a nil
error and a size decreased by 1, and a call that returns an error returns
`false` and leaves the list as it is. When `k` is the nil interface, an integer,
a string or a boolean, `==` against `k` is identity, so that the element erased
is the first occurrence of `k` if `k` occurs in `s`, and `Remove(k)` returns
`(false, "Key not found")` if `s` is not empty and `k` does not occur in it. -/
theorem remove_first_occurrence (st : State) (s : List Value) (k : Value) (fuel : Nat)
    (hm : Models st s) (hty : typeOf k = st.list.keyType) (hf : s.length ≤ fuel) :
    (s = [] → Remove fuel st k = .ret false (some .listIsEmpty) st) ∧
    (∀ i v, s[i]? = some v → ifaceEq v k = some true →
      (∀ j w, j < i → s[j]? = some w → ifaceEq w k = some false) →
      ∃ b st', Remove fuel st k = .ret b none st' ∧ Models st' (s.eraseIdx i) ∧
        keysFrom st' = some (s.eraseIdx i) ∧ st'.list.size + 1 = s.length ∧
        (k ≠ Value.nil → b = true)) ∧
    (s ≠ [] → (∀ v ∈ s, ifaceEq v k = some false) →
      Remove fuel st k = .ret false (some .keyNotFound) st) ∧
    (∀ b e st', Remove fuel st k = .ret b e st' →
      (b = true → e = none ∧ st'.list.size + 1 = s.length) ∧
      (e ≠ none → b = false ∧ st' = st)) ∧
    (isPlain k = true →
      (k ∈ s → ∃ b st', Remove fuel st k = .ret b none st' ∧ Models st' (s.erase k) ∧
        keysFrom st' = some (s.erase k) ∧ st'.list.size + 1 = s.length ∧
        (k ≠ Value.nil → b = true)) ∧
      (s ≠ [] → k ∉ s → Remove fuel st k = .ret false (some .keyNotFound) st)) := by
  obtain ⟨cs, hr, rfl⟩ := hm
  have hsize : st.list.size = cs.length := hr.2.2.2.1
  have hfc : cs.length ≤ fuel := by simpa using hf
  have hcs : List.map Prod.snd cs ≠ [] → cs ≠ [] := fun hne h => hne (by simp [h])
  refine ⟨?_, ?_, ?_, ?_, ?_⟩
  · intro he
    have hnil : cs = [] := by simpa using he
    subst hnil
    have h0 : st.list.size = 0 := hsize
    simp only [Remove, h0, if_true]
  · intro i v hv htrue hprev
    obtain ⟨xs, c, ys, hsplit, hlen, hcv, hxs⟩ := cells_match_split cs k i v hv hprev
    subst hsplit
    have hlt : xs.length < fuel := by
      simp only [List.length_append, List.length_cons] at hfc
      omega
    have hck : ifaceEq c.2 k = some true := hcv ▸ htrue
    obtain ⟨st', hrun, hrep, _⟩ := Remove_spec hr hty hxs hck hlt
    have herase : (List.map Prod.snd (xs ++ c :: ys)).eraseIdx i = (xs ++ ys).map Prod.snd := by
      have := eraseIdx_mid (xs.map Prod.snd) (ys.map Prod.snd) c.2
      rw [List.length_map, hlen] at this
      rw [List.map_append, List.map_cons, this, List.map_append]
    have hmod : Models st' ((List.map Prod.snd (xs ++ c :: ys)).eraseIdx i) :=
      ⟨_, hrep, herase.symm⟩
    refine ⟨_, st', hrun, hmod, hmod.keys_eq, ?_, ?_⟩
    · rw [hmod.size_eq, herase]
      simp only [List.length_map, List.length_append, List.length_cons]
      omega
    · intro hk
      have : c.2 ≠ Value.nil := (ifaceEq_true hck) ▸ hk
      simp [this]
  · intro hne hall
    exact Remove_notFound hr (hcs hne) hty
      (fun d hd => hall d.2 (List.mem_map_of_mem Prod.snd hd)) hfc
  · intro b e st' hrun
    rcases Remove_ret hr hrun with ⟨hst, hb, he⟩ | ⟨xs, c, ys, hsplit, _, _, hrep, he, _, _⟩
    · exact ⟨fun h => by simp [hb] at h, fun _ => ⟨hb, hst⟩⟩
    · refine ⟨fun _ => ⟨he, ?_⟩, fun h => absurd he h⟩
      have h1 : st'.list.size = (xs ++ ys).length := hrep.2.2.2.1
      rw [h1, hsplit]
      simp only [List.length_map, List.length_append, List.length_cons]
      omega
  · intro hp
    have heq : ∀ v : Value, ifaceEq v k = some (decide (v = k)) := fun v => ifaceEq_plain hp
    constructor
    · intro hmem
      obtain ⟨xs, c, ys, hsplit, hck, hxs⟩ := cells_first_split cs k hmem
      subst hsplit
      have hlen : xs.length < fuel := by
        simp only [List.length_append, List.length_cons] at hfc
        omega
      obtain ⟨st', hrun, hrep, _⟩ := Remove_spec hr hty
        (fun d hd => by rw [heq]; simp [hxs d hd]) (by rw [heq]; simp [hck]) hlen
      have hnot : k ∉ xs.map Prod.snd := by
        intro h
        obtain ⟨d, hd, hdk⟩ := List.mem_map.1 h
        exact hxs d hd hdk
      have herase : (List.map Prod.snd (xs ++ c :: ys)).erase k = (xs ++ ys).map Prod.snd := by
        rw [List.map_append, List.map_cons, List.erase_append_right _ hnot, hck,
          List.erase_cons_head, List.map_append]
      have hmod : Models st' ((List.map Prod.snd (xs ++ c :: ys)).erase k) :=
        ⟨_, hrep, herase.symm⟩
      refine ⟨_, st', hrun, hmod, hmod.keys_eq, ?_, ?_⟩
      · rw [hmod.size_eq, herase]
        simp only [List.length_map, List.length_append, List.length_cons]
        omega
      · intro hk
        have : c.2 ≠ Value.nil := hck ▸ hk
        simp [this]
    · intro hne hmem
      exact Remove_notFound hr (hcs hne) hty (fun d hd => by
        rw [heq]
        have : d.2 ≠ k := fun e => hmem (e ▸ List.mem_map_of_mem Prod.snd hd)
        simp [this]) hfc

/-- Witness of the amended C11: on `[0, 1, 2]`, `Remove(1)` erases the interior
element and `Remove(9)` reports that the key is not found; on the empty list
`Remove(1)` reports that the list is empty. -/
theorem remove_first_occurrence_witness :
    Models scenario [.int 0, .int 1, .int 2] ∧
    (∃ st', Remove 3 scenario (.int 1) = .ret true none st' ∧ Models st' [.int 0, .int 2]) ∧
    Remove 3 scenario (.int 9) = .ret false (some .keyNotFound) scenario ∧
    Models emptyInts [] ∧
    Remove 3 emptyInts (.int 1) = .ret false (some .listIsEmpty) emptyInts :=
  have hm : Models scenario [.int 0, .int 1, .int 2] := ⟨scenarioCells, by decide, by decide⟩
  have he : Models emptyInts [] := ⟨[], by decide, by decide⟩
  have h1 := remove_first_occurrence scenario [.int 0, .int 1, .int 2] (.int 1) 3 hm
    (by decide) (by decide)
  have h9 := remove_first_occurrence scenario [.int 0, .int 1, .int 2] (.int 9) 3 hm
    (by decide) (by decide)
  have h0 := remove_first_occurrence emptyInts [] (.int 1) 3 he (by decide) (by decide)
  ⟨hm,
    let ⟨b, st', hrun, hmod, _, _, hb⟩ :=
      h1.2.1 1 (.int 1) (by decide) (by decide) (fun j w hj hw => by
        have hcases : j = 0 := by omega
        subst hcases
        simp at hw
        subst hw
        rfl)
    ⟨st', by rw [← hb (by decide)]; exact hrun, hmod⟩,
    h9.2.2.1 (by decide) (by decide),
    he,
    h0.1 rfl⟩

/-- Counterexample to C11 as stated, on well-formed one-element lists whose key
`k` is of the list's `keyType` and occurs in the list. On `[[1]]`, a list of
integer slices, `Remove([1])` panics at the comparison `current.key == key`. On
`[NaN]`, of the comparable type `float64`, `Remove(NaN)` returns
`(false, "Key not found")` and removes nothing, since NaN is not equal to
itself. On the list of the struct `struct{ v interface{} }{[]int{1}}`, of a
comparable struct type, `Remove` of that struct panics. On `[nil]`,
`Remove(nil)` removes the only node and returns `(false, nil)`: the boolean is
`val != nil` of the removed key, so it is `false` although a node was
removed. -/
theorem remove_key_counterexample :
    (Models sliceList [.ints [1]] ∧ typeOf (.ints [1]) = sliceList.list.keyType ∧
      Value.ints [1] ∈ [Value.ints [1]] ∧ Remove 2 sliceList (.ints [1]) = .panic) ∧
    (Models nanList [.nan] ∧ typeOf .nan = nanList.list.keyType ∧
      comparable .float64 = true ∧ Value.nan ∈ [Value.nan] ∧
      Remove 2 nanList .nan = .ret false (some .keyNotFound) nanList) ∧
    (Models boxList [.boxed (.ints [1])] ∧
      typeOf (.boxed (.ints [1])) = boxList.list.keyType ∧ comparable .box = true ∧
      Value.boxed (.ints [1]) ∈ [Value.boxed (.ints [1])] ∧
      Remove 2 boxList (.boxed (.ints [1])) = .panic) ∧
    (Models nilList [.nil] ∧ typeOf .nil = nilList.list.keyType ∧
      Value.nil ∈ [Value.nil] ∧ Remove 2 nilList .nil = .ret false none nilListEmptied ∧
      Models nilListEmptied []) :=
  ⟨⟨⟨[(0, .ints [1])], by decide, by decide⟩, by decide, by decide, by decide⟩,
    ⟨⟨[(0, .nan)], by decide, by decide⟩, by decide, by decide, by decide, by decide⟩,
    ⟨⟨[(0, .boxed (.ints [1]))], by decide, by decide⟩, by decide, by decide, by decide,
      by decide⟩,
    ⟨⟨[(0, .nil)], by decide, by decide⟩, by decide, by decide, by decide,
      ⟨[], by decide, by decide⟩⟩⟩

/-! ## Failed calls leave the state untouched -/

theorem typeError_fail {mk : GoType → GoError} {st st' : State} {v : Bool}
    {e : Option GoError} (h : typeError mk st = .ret v e st') : st' = st := by
  unfold typeError at h
  cases hk : st.list.keyType with
  | none => simp [hk] at h
  | some t =>
    simp only [hk, Outcome.ret.injEq] at h
    exact h.2.2.symm

theorem InsertBack_fail {st st' : State} {key : Value} {v : Bool} {e : GoError}
    (h : InsertBack st key = .ret v (some e) st')
    : st' = st := by
  unfold InsertBack at h
  repeat' (first | split at h | dsimp only at h)
  all_goals
    first
    | exact typeError_fail h
    | simp at h

theorem InsertFront_fail {st st' : State} {key : Value} {v : Bool} {e : GoError}
    (h : InsertFront st key = .ret v (some e) st')
    : st' = st := by
  unfold InsertFront at h
  repeat' (first | split at h | dsimp only at h)
  all_goals
    first
    | exact typeError_fail h
    | simp at h

theorem InsertAt_fail {st st' : State} {index : Nat} {key : Value} {v : Bool} {e : GoError}
    (h : InsertAt st index key = .ret v (some e) st')
    : st' = st := by
  unfold InsertAt at h
  repeat' (first | split at h | dsimp only at h)
  all_goals
    first
    | exact typeError_fail h
    | exact InsertFront_fail h
    | exact InsertBack_fail h
    | (simp at h; done)
    | (simp only [Outcome.ret.injEq] at h; exact h.2.2.symm)

theorem At_fail {st st' : State} {index : Nat} {v : Value} {e : GoError}
    (h : At st index = .ret v (some e) st')
    : st' = st := by
  unfold At at h
  repeat' (first | split at h | dsimp only at h)
  all_goals
    first
    | exact typeError_fail h
    | (simp at h; done)
    | (simp only [Outcome.ret.injEq] at h; exact h.2.2.symm)

theorem IndexOf_fail {st st' : State} {fuel : Nat} {t : Value} {v : Nat} {e : GoError}
    (h : IndexOf fuel st t = .ret v (some e) st')
    : st' = st := by
  unfold IndexOf at h
  repeat' (first | split at h | dsimp only at h)
  all_goals
    first
    | exact typeError_fail h
    | (simp at h; done)
    | (simp only [Outcome.ret.injEq] at h; exact h.2.2.symm)

theorem RemoveBack_fail {st st' : State} {v : Value} {e : GoError}
    (h : RemoveBack st = .ret v (some e) st')
    : st' = st := by
  unfold RemoveBack at h
  repeat' (first | split at h | dsimp only at h)
  all_goals
    first
    | exact typeError_fail h
    | (simp at h; done)
    | (simp only [Outcome.ret.injEq] at h; exact h.2.2.symm)

theorem RemoveFront_fail {st st' : State} {v : Value} {e : GoError}
    (h : RemoveFront st = .ret v (some e) st')
    : st' = st := by
  unfold RemoveFront at h
  repeat' (first | split at h | dsimp only at h)
  all_goals
    first
    | exact typeError_fail h
    | (simp at h; done)
    | (simp only [Outcome.ret.injEq] at h; exact h.2.2.symm)

theorem RemoveAt_fail {st st' : State} {index : Nat} {v : Value} {e : GoError}
    (h : RemoveAt st index = .ret v (some e) st')
    : st' = st := by
  unfold RemoveAt at h
  repeat' (first | split at h | dsimp only at h)
  all_goals
    first
    | exact typeError_fail h
    | exact RemoveFront_fail h
    | exact RemoveBack_fail h
    | (simp at h; done)
    | (simp only [Outcome.ret.injEq] at h; exact h.2.2.symm)

theorem viaRemoved_fail {o : Outcome Value} {st' : State} {v : Bool} {e : GoError}
    (h : viaRemoved o = .ret v (some e) st') : ∃ w, o = .ret w (some e) st' := by
  cases o with
  | ret w e2 st2 =>
    simp only [viaRemoved, Outcome.ret.injEq] at h
    exact ⟨w, by rw [h.2.1, h.2.2]⟩
  | panic => simp [viaRemoved] at h
  | timeout => simp [viaRemoved] at h

theorem Remove_fail {st st' : State} {fuel : Nat} {key : Value} {v : Bool} {e : GoError}
    (h : Remove fuel st key = .ret v (some e) st')
    : st' = st := by
  unfold Remove at h
  repeat' (first | split at h | dsimp only at h)
  all_goals
    first
    | exact typeError_fail h
    | exact RemoveFront_fail (viaRemoved_fail h).choose_spec
    | exact RemoveBack_fail (viaRemoved_fail h).choose_spec
    | (simp at h; done)
    | (simp only [Outcome.ret.injEq] at h; exact h.2.2.symm)

theorem result_failed {α : Type} {o : Outcome α} {e : GoError} {st' : State}
    (h : o.result = some (some e, st')) : ∃ v, o = .ret v (some e) st' := by
  cases o with
  | ret v e2 st2 =>
    simp only [Outcome.result, Option.some.injEq, Prod.mk.injEq] at h
    exact ⟨v, by rw [h.1, h.2]⟩
  | panic => simp [Outcome.result] at h
  | timeout => simp [Outcome.result] at h

theorem exec_failed {st st' : State} {c : Call} {e : GoError}
    (h : c.exec st = some (some e, st')) : st' = st := by
  cases c with
  | mutate op =>
    cases op with
    | insertBack key => exact InsertBack_fail (result_failed h).choose_spec
    | insertFront key => exact InsertFront_fail (result_failed h).choose_spec
    | insertAt index key => exact InsertAt_fail (result_failed h).choose_spec
    | removeBack => exact RemoveBack_fail (result_failed h).choose_spec
    | removeFront => exact RemoveFront_fail (result_failed h).choose_spec
    | removeAt index => exact RemoveAt_fail (result_failed h).choose_spec
    | remove fuel key => exact Remove_fail (result_failed h).choose_spec
  | atIndex index => exact At_fail (result_failed h).choose_spec
  | indexOf fuel t => exact IndexOf_fail (result_failed h).choose_spec

/-- C12. Atomicity on failure: whenever a call of `InsertBack`, `InsertFront`,
`InsertAt`, `At`, `IndexOf`, `RemoveBack`, `RemoveFront`, `RemoveAt` or `Remove`
returns a non-nil error, the state it leaves (the list value and every node of
the heap) is the state before the call. This holds of every state, well-formed
or not. -/
theorem failed_call_atomic (st st' : State) (c : Call) (e : GoError)
    (h : c.exec st = some (some e, st')) : st' = st :=
  exec_failed h

/-- Witness of C12: `InsertAt(5, 7)` on the list `[0, 1, 2]` fails with an index
error and `Remove(9)` fails with "Key not found". -/
theorem failed_call_atomic_witness :
    (Call.mutate (.insertAt 5 (.int 7))).exec scenario =
      some (some (.indexOutOfRangeSize 5 3), scenario) ∧
    (Call.mutate (.remove 3 (.int 9))).exec scenario = some (some .keyNotFound, scenario) ∧
    scenario = scenario :=
  ⟨by decide, by decide,
    failed_call_atomic scenario scenario (.mutate (.insertAt 5 (.int 7)))
      (.indexOutOfRangeSize 5 3) (by decide)⟩

/-! ## Type enforcement -/

/-- On a list whose `keyType` is a type `ty` (the sample was not the nil
interface), a key of another dynamic type is rejected by the three inserts with
the error "Expected key type" and the state is left as it is. -/
theorem type_mismatch_rejected (st : State) (ty : GoType) (key : Value) (i : Nat)
    (hk : st.list.keyType = some ty) (hty : typeOf key ≠ some ty)
    (hi : i ≤ st.list.size) :
    InsertBack st key = .ret false (some (.expectedKeyType ty)) st ∧
    InsertFront st key = .ret false (some (.expectedKeyType ty)) st ∧
    InsertAt st i key = .ret false (some (.expectedKeyType ty)) st := by
  have hne : typeOf key ≠ st.list.keyType := by rw [hk]; exact hty
  have hi2 : ¬ i > st.list.size := by omega
  refine ⟨?_, ?_, ?_⟩
  · unfold InsertBack
    rw [if_pos hne]
    simp only [typeError, hk]
  · unfold InsertFront
    rw [if_pos hne]
    simp only [typeError, hk]
  · unfold InsertAt
    rw [if_neg hi2, if_pos hne]
    simp only [typeError, hk]

/-- C13 at its failing input. The list built by `NewLinkedList(nil)` has the nil
`reflect.Type` as `keyType`; inserting the integer `1`, whose type differs from
it, panics in `l.keyType.String()` while the error message is built, in
`InsertBack`, `InsertFront` and `InsertAt`, instead of returning
`(false, error)`. -/
theorem nil_sample_mismatch_panics :
    emptyNil.list = NewLinkedList .nil ∧ typeOf (.int 1) ≠ typeOf Value.nil ∧
    InsertBack emptyNil (.int 1) = .panic ∧
    InsertFront emptyNil (.int 1) = .panic ∧
    InsertAt emptyNil 0 (.int 1) = .panic :=
  ⟨rfl, by decide, by decide, by decide, by decide⟩

/-! ## Index bounds -/

theorem InsertAt_at_size {st : State} {cs : List Cell} (x : Value)
    (hr : Represents st cs) (hty : typeOf x = st.list.keyType) :
    InsertAt st st.list.size x = InsertBack st x := by
  have hc : (typeOf x ≠ st.list.keyType) = False := eq_false (not_not.2 hty)
  by_cases h0 : st.list.size = 0
  · have hnil : cs = [] := List.length_eq_zero.1 (hr.2.2.2.1 ▸ h0)
    subst hnil
    have hhead : st.list.head = none := (seg_nil ..).1 hr.1
    have htl : st.list.tail = none := hr.2.1
    simp only [InsertAt, InsertFront, InsertBack, hc, h0, hhead, htl, gt_iff_lt,
      lt_irrefl, and_self, if_true, if_false]
  · simp only [InsertAt, hc, h0, gt_iff_lt, lt_irrefl, if_true, if_false]

/-- C14. Index bounds on a well-formed list with key sequence `s` (so of size
`n = |s|`) and a key `x` of the list's `keyType`: `At(i)` and `RemoveAt(i)`
return a non-nil error when `i >= n` and a nil error when `i < n`;
`InsertAt(i, x)` returns a non-nil error when `i > n` and succeeds when
`i <= n`; and `InsertAt(n, x)` leaves the state `InsertBack(x)` leaves, with
key sequence `s ++ [x]`. The size counter is assumed not to overflow. -/
theorem index_bounds (st : State) (s : List Value) (i : Nat) (x : Value)
    (hm : Models st s) (hty : typeOf x = st.list.keyType)
    (hfit : s.length + 1 < uintMod) :
    (s.length ≤ i →
      At st i = .ret .nil (some (.indexOutOfRangeSize i st.list.size)) st ∧
      RemoveAt st i = .ret .nil (some .indexOutOfRange) st) ∧
    (i < s.length →
      (∃ v, At st i = .ret v none st) ∧ ∃ v st', RemoveAt st i = .ret v none st') ∧
    (s.length < i →
      InsertAt st i x = .ret false (some (.indexOutOfRangeSize i st.list.size)) st) ∧
    (i ≤ s.length → ∃ st', InsertAt st i x = .ret true none st') ∧
    (∃ st', InsertAt st s.length x = .ret true none st' ∧
      InsertBack st x = .ret true none st' ∧ Models st' (s ++ [x])) := by
  have hsz := hm.size_eq
  refine ⟨?_, ?_, ?_, ?_, ?_⟩
  · intro hi
    have h1 : i ≥ st.list.size := by omega
    simp only [At, RemoveAt, if_pos h1, and_self]
  · intro hi
    exact ⟨⟨_, (at_returns_key st s i hm hi).1⟩,
      let ⟨st', h1, _⟩ := removeAt_sequence st s i hm hi
      ⟨_, st', h1⟩⟩
  · intro hi
    have h1 : i > st.list.size := by omega
    simp only [InsertAt, if_pos h1]
  · intro hi
    obtain ⟨st', h1, _⟩ := insertAt_sequence st s i x hm hi hty hfit
    exact ⟨st', h1⟩
  · obtain ⟨⟨st', h1, h2, _⟩, _⟩ := insert_ends_sequence st s x hm hty hfit
    obtain ⟨cs, hr, _⟩ := hm
    refine ⟨st', ?_, h1, h2⟩
    rw [← hsz, InsertAt_at_size x hr hty]
    exact h1

/-- Witness of C14: on the list `[0, 1, 2]`, `At(3)`, `RemoveAt(3)` and
`InsertAt(4, 7)` fail, and `InsertAt(3, 7)` appends. -/
theorem index_bounds_witness :
    Models scenario [.int 0, .int 1, .int 2] ∧
    At scenario 3 = .ret .nil (some (.indexOutOfRangeSize 3 3)) scenario ∧
    RemoveAt scenario 3 = .ret .nil (some .indexOutOfRange) scenario ∧
    InsertAt scenario 4 (.int 7) = .ret false (some (.indexOutOfRangeSize 4 3)) scenario ∧
    ∃ st', InsertAt scenario 3 (.int 7) = .ret true none st' ∧
      Models st' [.int 0, .int 1, .int 2, .int 7] :=
  have hm : Models scenario [.int 0, .int 1, .int 2] := ⟨scenarioCells, by decide, by decide⟩
  have h3 := index_bounds scenario [.int 0, .int 1, .int 2] 3 (.int 7) hm (by decide)
    (by decide)
  have h4 := index_bounds scenario [.int 0, .int 1, .int 2] 4 (.int 7) hm (by decide)
    (by decide)
  ⟨hm, (h3.1 (by decide)).1, (h3.1 (by decide)).2, h4.2.2.1 (by decide),
    let ⟨st', h1, _, h2⟩ := h3.2.2.2.2
    ⟨st', h1, h2⟩⟩

/-! ## Order preservation -/

theorem insertAll_back {st : State} {s : List Value} (xs : List Value)
    (hm : Models st s) (hty : ∀ x ∈ xs, typeOf x = st.list.keyType)
    (hfit : s.length + xs.length < uintMod) :
    ∃ st', insertAll InsertBack xs st = some st' ∧ Models st' (s ++ xs) ∧
      st'.list.keyType = st.list.keyType := by
  induction xs generalizing st s with
  | nil => exact ⟨st, rfl, by simpa using hm, rfl⟩
  | cons x xs ih =>
    obtain ⟨cs, hr, rfl⟩ := hm
    simp only [List.length_cons, List.length_map] at hfit
    obtain ⟨st1, hrun, hrep, hkt⟩ := InsertBack_spec x hr (hty x (by simp)) (by omega)
    have hm1 : Models st1 (cs.map Prod.snd ++ [x]) := ⟨_, hrep, by simp⟩
    obtain ⟨st2, hrun2, hm2, hkt2⟩ := ih hm1
      (fun y hy => by rw [hkt]; exact hty y (by simp [hy]))
      (by simp only [List.length_append, List.length_map, List.length_singleton]; omega)
    refine ⟨st2, ?_, by simpa using hm2, by rw [hkt2, hkt]⟩
    simp only [insertAll, hrun]
    exact hrun2

theorem insertAll_front {st : State} {s : List Value} (xs : List Value)
    (hm : Models st s) (hty : ∀ x ∈ xs, typeOf x = st.list.keyType)
    (hfit : s.length + xs.length < uintMod) :
    ∃ st', insertAll InsertFront xs st = some st' ∧ Models st' (xs.reverse ++ s) ∧
      st'.list.keyType = st.list.keyType := by
  induction xs generalizing st s with
  | nil => exact ⟨st, rfl, by simpa using hm, rfl⟩
  | cons x xs ih =>
    obtain ⟨cs, hr, rfl⟩ := hm
    simp only [List.length_cons, List.length_map] at hfit
    obtain ⟨st1, hrun, hrep, hkt⟩ := InsertFront_spec x hr (hty x (by simp)) (by omega)
    have hm1 : Models st1 (x :: cs.map Prod.snd) := ⟨_, hrep, by simp⟩
    obtain ⟨st2, hrun2, hm2, hkt2⟩ := ih hm1
      (fun y hy => by rw [hkt]; exact hty y (by simp [hy]))
      (by simp only [List.length_cons, List.length_map]; omega)
    refine ⟨st2, ?_, by simpa using hm2, by rw [hkt2, hkt]⟩
    simp only [insertAll, hrun]
    exact hrun2

theorem drainFront_all {st : State} (s : List Value) (hm : Models st s) :
    ∃ st', drainFront s.length st = some (s, st') ∧ Models st' [] := by
  induction s generalizing st with
  | nil => exact ⟨st, rfl, hm⟩
  | cons x xs ih =>
    obtain ⟨cs, hr, he⟩ := hm
    cases cs with
    | nil => simp at he
    | cons c cs =>
      simp only [List.map_cons, List.cons.injEq] at he
      obtain ⟨st1, hrun, hrep, _⟩ := RemoveFront_spec hr
      have hm1 : Models st1 xs := ⟨cs, hrep, he.2⟩
      obtain ⟨st2, hrun2, hm2⟩ := ih hm1
      refine ⟨st2, ?_, hm2⟩
      simp only [List.length_cons, drainFront, hrun, hrun2, he.1]

/-- C15. Order preservation. Starting from the empty list `NewLinkedList(sample)`
on any heap, for every sequence `xs` of keys of the list's `keyType`:
`InsertBack` of the keys in order followed by `|xs|` calls of `RemoveFront`
returns the keys in the order of insertion (FIFO) and ends with an empty list,
and `InsertFront` of the keys in order followed by `|xs|` calls of
`RemoveFront` returns them in reverse order (LIFO) and ends with an empty list.
The number of keys is assumed to fit the `uint` size counter. -/
theorem order_preservation (h : Heap) (sample : Value) (xs : List Value)
    (hty : ∀ x ∈ xs, typeOf x = typeOf sample) (hfit : xs.length < uintMod) :
    (∃ st1 st2, insertAll InsertBack xs { heap := h, list := NewLinkedList sample } = some st1 ∧
      drainFront xs.length st1 = some (xs, st2) ∧ Models st2 [] ∧
      st2.list.head = none ∧ st2.list.tail = none ∧ st2.list.size = 0) ∧
    (∃ st1 st2, insertAll InsertFront xs { heap := h, list := NewLinkedList sample } = some st1 ∧
      drainFront xs.length st1 = some (xs.reverse, st2) ∧ Models st2 [] ∧
      st2.list.head = none ∧ st2.list.tail = none ∧ st2.list.size = 0) := by
  have hm0 : Models { heap := h, list := NewLinkedList sample } [] :=
    ⟨[], Represents.new h sample, rfl⟩
  constructor
  · obtain ⟨st1, hrun, hm1, _⟩ := insertAll_back xs hm0 hty (by simpa using hfit)
    obtain ⟨st2, hdr, hm2⟩ := drainFront_all ([] ++ xs) hm1
    simp only [List.nil_append] at hdr
    exact ⟨st1, st2, hrun, hdr, hm2, hm2.nil_ends.1, hm2.nil_ends.2, by simpa using hm2.size_eq⟩
  · obtain ⟨st1, hrun, hm1, _⟩ := insertAll_front xs hm0 hty (by simpa using hfit)
    obtain ⟨st2, hdr, hm2⟩ := drainFront_all (xs.reverse ++ []) hm1
    simp only [List.append_nil, List.length_reverse] at hdr
    exact ⟨st1, st2, hrun, hdr, hm2, hm2.nil_ends.1, hm2.nil_ends.2, by simpa using hm2.size_eq⟩

/-- Witness of C15: the keys `1, 2, 3` through an empty list of integers. -/
theorem order_preservation_witness :
    (∀ x ∈ [Value.int 1, .int 2, .int 3], typeOf x = typeOf (Value.int 0)) ∧
    (∃ st1 st2, insertAll InsertBack [.int 1, .int 2, .int 3] emptyInts = some st1 ∧
      drainFront 3 st1 = some ([.int 1, .int 2, .int 3], st2)) ∧
    (∃ st1 st2, insertAll InsertFront [.int 1, .int 2, .int 3] emptyInts = some st1 ∧
      drainFront 3 st1 = some ([.int 3, .int 2, .int 1], st2)) :=
  have hty : ∀ x ∈ [Value.int 1, .int 2, .int 3], typeOf x = typeOf (Value.int 0) := by decide
  have h := order_preservation [] (.int 0) [.int 1, .int 2, .int 3] hty (by decide)
  ⟨hty,
    let ⟨st1, st2, h1, h2, _⟩ := h.1
    ⟨st1, st2, h1, h2⟩,
    let ⟨st1, st2, h1, h2, _⟩ := h.2
    ⟨st1, st2, h1, h2⟩⟩

/-! ## Size counting -/

theorem result_ok {α : Type} {o : Outcome α} {st' : State}
    (h : o.result = some (none, st')) : ∃ v, o = .ret v none st' := by
  cases o with
  | ret v e2 st2 =>
    simp only [Outcome.result, Option.some.injEq, Prod.mk.injEq] at h
    exact ⟨v, by rw [h.1, h.2]⟩
  | panic => simp [Outcome.result] at h
  | timeout => simp [Outcome.result] at h

theorem At_ret {st st' : State} {index : Nat} {v : Value} {e : Option GoError}
    (h : At st index = .ret v e st') : st' = st := by
  unfold At at h
  repeat' (first | split at h | dsimp only at h)
  all_goals
    first
    | (simp at h; done)
    | (simp only [Outcome.ret.injEq] at h; exact h.2.2.symm)

theorem typeError_not_ok {mk : GoType → GoError} {st st' : State} {v : Bool}
    (h : typeError mk st = .ret v none st') : False := by
  unfold typeError at h
  split at h <;> simp at h

/-- A mutating call that returns a nil error on a represented list: an insert
adds one cell and a removal takes one away. -/
theorem Op.ok_size {st st' : State} {op : Op} {cs : List Cell} (hr : Represents st cs)
    (hfit : st.list.size + 1 < uintMod) (h : op.result st = some (none, st')) :
    WF st' ∧ st'.list.size + (if op.isRemove then 1 else 0) =
      st.list.size + (if op.isInsert then 1 else 0) := by
  have hsize : st.list.size = cs.length := hr.2.2.2.1
  have hfit2 : cs.length + 1 < uintMod := by omega
  cases op with
  | insertBack key =>
    obtain ⟨v, hv⟩ := result_ok h
    by_cases hty : typeOf key = st.list.keyType
    · obtain ⟨st2, hrun, hrep, _⟩ := InsertBack_spec key hr hty hfit2
      rw [hrun] at hv
      simp only [Outcome.ret.injEq] at hv
      rw [← hv.2.2]
      exact ⟨⟨_, hrep⟩, by simp [Op.isRemove, Op.isInsert, hrep.2.2.2.1, hsize]⟩
    · unfold InsertBack at hv
      rw [if_pos hty] at hv
      exact (typeError_not_ok hv).elim
  | insertFront key =>
    obtain ⟨v, hv⟩ := result_ok h
    by_cases hty : typeOf key = st.list.keyType
    · obtain ⟨st2, hrun, hrep, _⟩ := InsertFront_spec key hr hty hfit2
      rw [hrun] at hv
      simp only [Outcome.ret.injEq] at hv
      rw [← hv.2.2]
      exact ⟨⟨_, hrep⟩, by simp [Op.isRemove, Op.isInsert, hrep.2.2.2.1, hsize]⟩
    · unfold InsertFront at hv
      rw [if_pos hty] at hv
      exact (typeError_not_ok hv).elim
  | insertAt index key =>
    obtain ⟨v, hv⟩ := result_ok h
    by_cases hi : index > st.list.size
    · unfold InsertAt at hv
      rw [if_pos hi] at hv
      simp at hv
    by_cases hty : typeOf key = st.list.keyType
    · have hi2 : index ≤ cs.length := by omega
      obtain ⟨st2, hrun, hrep, _⟩ := InsertAt_spec index key hr hi2 hty hfit2
      rw [hrun] at hv
      simp only [Outcome.ret.injEq] at hv
      rw [← hv.2.2]
      refine ⟨⟨_, hrep⟩, ?_⟩
      simp only [Op.isRemove, Op.isInsert, hrep.2.2.2.1, hsize, List.length_append,
        List.length_take, List.length_cons, List.length_drop]
      simp
      omega
    · unfold InsertAt at hv
      rw [if_neg hi, if_pos hty] at hv
      exact (typeError_not_ok hv).elim
  | removeBack =>
    obtain ⟨v, hv⟩ := result_ok h
    rcases eq_nil_or_snoc cs with rfl | ⟨xs, c, rfl⟩
    · have h0 : st.list.size = 0 := hsize
      simp [RemoveBack, h0] at hv
    · obtain ⟨st2, hrun, hrep, _⟩ := RemoveBack_spec hr
      rw [hrun] at hv
      simp only [Outcome.ret.injEq] at hv
      rw [← hv.2.2]
      exact ⟨⟨_, hrep⟩, by simp [Op.isRemove, Op.isInsert, hrep.2.2.2.1, hsize]⟩
  | removeFront =>
    obtain ⟨v, hv⟩ := result_ok h
    cases cs with
    | nil =>
      have h0 : st.list.size = 0 := hsize
      simp [RemoveFront, h0] at hv
    | cons c cs =>
      obtain ⟨st2, hrun, hrep, _⟩ := RemoveFront_spec hr
      rw [hrun] at hv
      simp only [Outcome.ret.injEq] at hv
      rw [← hv.2.2]
      exact ⟨⟨_, hrep⟩, by simp [Op.isRemove, Op.isInsert, hrep.2.2.2.1, hsize]⟩
  | removeAt index =>
    obtain ⟨v, hv⟩ := result_ok h
    by_cases hi : index ≥ st.list.size
    · unfold RemoveAt at hv
      rw [if_pos hi] at hv
      simp at hv
    · have hlt : index < cs.length := by omega
      obtain ⟨hsplit, hlen⟩ := split_at_index cs index hlt
      have hr2 : Represents st (cs.take index ++ cs[index] :: cs.drop (index + 1)) := by
        rw [← hsplit]; exact hr
      obtain ⟨st2, hrun, hrep, _⟩ := RemoveAt_spec hr2
      rw [hlen] at hrun
      rw [hrun] at hv
      simp only [Outcome.ret.injEq] at hv
      rw [← hv.2.2]
      refine ⟨⟨_, hrep⟩, ?_⟩
      simp only [Op.isRemove, Op.isInsert, hrep.2.2.2.1, hsize, List.length_append,
        List.length_take, List.length_drop]
      simp
      omega
  | remove fuel key =>
    obtain ⟨v, hv⟩ := result_ok h
    rcases Remove_ret hr hv with ⟨_, _, he⟩ | ⟨xs, c, ys, hcs, _, _, hrep, _⟩
    · exact absurd rfl he
    · refine ⟨⟨_, hrep⟩, ?_⟩
      simp only [Op.isRemove, Op.isInsert, hrep.2.2.2.1, hsize, hcs, List.length_append,
        List.length_cons]
      simp
      omega

/-- The effect of one returning call on the size of a well-formed list. -/
theorem exec_size {st st' : State} {c : Call} {e : Option GoError} (hwf : WF st)
    (hfit : st.list.size + 1 < uintMod) (h : c.exec st = some (e, st')) :
    WF st' ∧ st'.list.size + (if c.isRemove && e.isNone then 1 else 0) =
      st.list.size + (if c.isInsert && e.isNone then 1 else 0) := by
  cases e with
  | some err =>
    have := exec_failed h
    subst this
    exact ⟨hwf, by simp⟩
  | none =>
    obtain ⟨cs, hr⟩ := hwf
    cases c with
    | mutate op =>
      have := Op.ok_size hr hfit h
      simpa [Call.isRemove, Call.isInsert] using this
    | atIndex index =>
      obtain ⟨v, hv⟩ := result_ok h
      have := At_ret hv
      subst this
      exact ⟨⟨cs, hr⟩, by simp [Call.isRemove, Call.isInsert]⟩
    | indexOf fuel t =>
      obtain ⟨v, hv⟩ := result_ok h
      have := IndexOf_ret hv
      subst this
      exact ⟨⟨cs, hr⟩, by simp [Call.isRemove, Call.isInsert]⟩

theorem runCalls_size {st st' : State} (calls : List Call) {n m : Nat} (hwf : WF st)
    (hfit : st.list.size + calls.length < uintMod)
    (h : runCalls calls st = some (n, m, st')) :
    WF st' ∧ st'.list.size + m = st.list.size + n := by
  induction calls generalizing st n m with
  | nil =>
    simp only [runCalls, Option.some.injEq, Prod.mk.injEq] at h
    obtain ⟨h1, h2, h3⟩ := h
    subst h1 h2 h3
    exact ⟨hwf, rfl⟩
  | cons c cs ih =>
    simp only [List.length_cons] at hfit
    unfold runCalls at h
    cases hex : c.exec st with
    | none => simp [hex] at h
    | some r =>
      obtain ⟨e, st1⟩ := r
      simp only [hex] at h
      obtain ⟨hwf1, hstep⟩ := exec_size hwf (by omega) hex
      cases hrest : runCalls cs st1 with
      | none => simp [hrest] at h
      | some r2 =>
        obtain ⟨n2, m2, st2⟩ := r2
        simp only [hrest, Option.some.injEq, Prod.mk.injEq] at h
        obtain ⟨h1, h2, h3⟩ := h
        subst h1 h2 h3
        have hsz1 : st1.list.size ≤ st.list.size + 1 := by
          split at hstep <;> split at hstep <;> omega
        obtain ⟨hwf2, hrec⟩ := ih hwf1 (by omega) hrest
        exact ⟨hwf2, by omega⟩

/-- C16. Size counting. Starting from the list returned by `NewLinkedList` (on
any heap), after any finite sequence of calls of `InsertBack`, `InsertFront`,
`InsertAt`, `RemoveBack`, `RemoveFront`, `RemoveAt`, `Remove`, `At` and
`IndexOf` that all return, of which `N` insert calls and `M` remove calls
returned without error, `Size() == N - M`. Each call on a well-formed list
changes the size by `+1` when it is an insert that returns without error, by
`-1` when it is a removal that returns without error, and by `0` otherwise. The
number of calls is assumed to fit the `uint` size counter. -/
theorem size_counting :
    (∀ (h : Heap) (key : Value) (calls : List Call) (n m : Nat) (st' : State),
      calls.length < uintMod →
      runCalls calls { heap := h, list := NewLinkedList key } = some (n, m, st') →
      Size st' + m = n ∧ Size st' = n - m) ∧
    (∀ (st st' : State) (c : Call) (e : Option GoError), WF st →
      st.list.size + 1 < uintMod → c.exec st = some (e, st') →
      Size st' + (if c.isRemove && e.isNone then 1 else 0) =
        Size st + (if c.isInsert && e.isNone then 1 else 0)) := by
  constructor
  · intro h key calls n m st' hfit hrun
    have hwf : WF { heap := h, list := NewLinkedList key } := ⟨[], Represents.new h key⟩
    have := (runCalls_size calls hwf (by simpa [NewLinkedList] using hfit) hrun).2
    simp only [NewLinkedList, Nat.zero_add] at this
    unfold Size
    omega
  · intro st st' c e hwf hfit hex
    exact (exec_size hwf hfit hex).2

/-- Witness of C16: the scenario of the specification with failed calls
interleaved; three inserts and one removal succeed and the size is 2. -/
theorem size_counting_witness :
    scenarioCalls.length < uintMod ∧
    runCalls scenarioCalls emptyInts = some (3, 1, scenarioRemoved) ∧
    Size scenarioRemoved + 1 = 3 ∧ Size scenarioRemoved = 3 - 1 :=
  ⟨by decide, by decide,
    size_counting.1 [] (.int 0) scenarioCalls 3 1 scenarioRemoved (by decide) (by decide)⟩

/-! ## Rendering -/

theorem renderFrom_seg {h : Heap} {p cur : Option Nat} {cs : List Cell}
    (hs : seg h p cur cs none) (fuel : Nat) (hf : cs.length ≤ fuel) :
    renderFrom h fuel cur = some (joinSep ", " (cs.map (fun c => sprintV c.2))) := by
  induction cs generalizing p cur fuel with
  | nil =>
    have := (seg_nil ..).1 hs
    subst this
    cases fuel <;> simp [renderFrom, joinSep]
  | cons c cs ih =>
    obtain ⟨hc, n, hn, _, hk, hr⟩ := (seg_cons ..).1 hs
    subst hc
    cases fuel with
    | zero => simp at hf
    | succ f =>
      have hnext := seg_cur hr
      simp only [renderFrom, hn]
      rw [ih hr f (by simpa using hf), hk]
      cases cs with
      | nil =>
        simp only at hnext
        simp [hnext, joinSep]
      | cons d ds =>
        simp only at hnext
        simp [hnext, joinSep, String.append_assoc]

theorem intercalate_go_cons (sep acc b : String) (rest : List String) :
    String.intercalate.go acc sep (b :: rest) = acc ++ sep ++ joinSep sep (b :: rest) := by
  induction rest generalizing acc b with
  | nil => simp [String.intercalate.go, joinSep]
  | cons c r ih =>
    rw [String.intercalate.go, ih]
    simp [joinSep, String.append_assoc]

theorem joinSep_eq_intercalate (sep : String) (l : List String) :
    joinSep sep l = sep.intercalate l := by
  cases l with
  | nil => rfl
  | cons a as =>
    cases as with
    | nil => simp [joinSep, String.intercalate, String.intercalate.go]
    | cons b rest =>
      rw [String.intercalate, intercalate_go_cons]
      simp [joinSep, String.append_assoc]

/-- C17. On a well-formed list with key sequence `e0 .. e(n-1)`, given fuel for
the `n` iterations of its loop, `String()` returns `"["`, then the `%v` texts of
`e0, ..., e(n-1)` in that order joined by `", "` with no trailing separator,
then `"]"`; on the empty list it returns exactly `"[]"`. The state it leaves is
the state it was called on. -/
theorem string_rendering (st : State) (s : List Value) (fuel : Nat)
    (hm : Models st s) (hf : s.length ≤ fuel) :
    LinkedList.String fuel st =
      .ret ("[" ++ ", ".intercalate (s.map sprintV) ++ "]") none st ∧
    ", ".intercalate (s.map sprintV) = joinSep ", " (s.map sprintV) ∧
    (s = [] → LinkedList.String fuel st = .ret "[]" none st) := by
  obtain ⟨cs, hr, rfl⟩ := hm
  have hren := renderFrom_seg hr.1 fuel (by simpa using hf)
  have hmap : cs.map (fun c => sprintV c.2) = (cs.map Prod.snd).map sprintV := by
    simp [List.map_map, Function.comp_def]
  rw [hmap, joinSep_eq_intercalate] at hren
  have hmain : LinkedList.String fuel st =
      .ret ("[" ++ ", ".intercalate ((cs.map Prod.snd).map sprintV) ++ "]") none st := by
    simp only [LinkedList.String, hren]
  refine ⟨hmain, (joinSep_eq_intercalate _ _).symm, ?_⟩
  intro he
  rw [hmain, he]
  rfl

/-- Witness of C17: the list `[0, 1, 2]` renders as `"[0, 1, 2]"` and the empty
list as `"[]"`. -/
theorem string_rendering_witness :
    Models scenario [.int 0, .int 1, .int 2] ∧ Models emptyInts [] ∧
    LinkedList.String 3 scenario = .ret "[0, 1, 2]" none scenario ∧
    LinkedList.String 0 emptyInts = .ret "[]" none emptyInts :=
  have hm : Models scenario [.int 0, .int 1, .int 2] := ⟨scenarioCells, by decide, by decide⟩
  have he : Models emptyInts [] := ⟨[], by decide, by decide⟩
  ⟨hm, he, (string_rendering scenario [.int 0, .int 1, .int 2] 3 hm (by decide)).1,
    (string_rendering emptyInts [] 0 he (by decide)).2.2 rfl⟩

/-! ## The traversal bound -/

/-- C18. Traversal bound: for every list size `n` (a `uint`) and every index
`i < n`, the number of pointer steps of the traversal rule of `At`, `InsertAt`
and `RemoveAt`, that is `i` when `i < n/2` and `n-i-1` otherwise, is at most
`n/2` and equals `min(i, n-1-i)`; the traversal of the code takes exactly that
many steps along `next` from `head`, or along `prev` from `tail`. -/
theorem traversal_bound (n i : Nat) (hn : n < uintMod) (hi : i < n) :
    traversalSteps n i = (if i < n / 2 then i else n - i - 1) ∧
    traversalSteps n i ≤ n / 2 ∧
    traversalSteps n i = min i (n - 1 - i) ∧
    ∀ st : State, st.list.size = n →
      locate st i =
        if i < n / 2 then stepsNext st.heap (traversalSteps n i) st.list.head
        else stepsPrev st.heap (traversalSteps n i) st.list.tail := by
  have h1 : usub n i = n - i := usub_small (by omega) hn
  have h2 : usub (n - i) 1 = n - i - 1 := usub_small (by omega) (by omega)
  have hsteps : traversalSteps n i = (if i < n / 2 then i else n - i - 1) := by
    unfold traversalSteps
    rw [h1, h2]
  refine ⟨hsteps, ?_, ?_, ?_⟩
  · rw [hsteps]; split <;> omega
  · rw [hsteps]; split <;> omega
  · intro st hst
    unfold locate traversalSteps
    rw [hst]
    split <;> rfl

/-- Witness of C18: size 5; index 1 takes one step from the head and index 3
takes one step from the tail. -/
theorem traversal_bound_witness :
    (5 < uintMod ∧ 1 < 5 ∧ 3 < 5) ∧ traversalSteps 5 1 = 1 ∧ traversalSteps 5 3 = 1 ∧
    traversalSteps 5 3 ≤ 5 / 2 :=
  ⟨by decide,
    (traversal_bound 5 1 (by decide) (by decide)).1,
    (traversal_bound 5 3 (by decide) (by decide)).1,
    (traversal_bound 5 3 (by decide) (by decide)).2.1⟩

/-! ## Remove and RemoveAt -/

theorem scan_found_idx {h : Heap} {t : Value} {p cur : Option Nat} {cs : List Cell}
    (hs : seg h p cur cs none) {fuel k a idx : Nat} (hk : k + cs.length < uintMod)
    (hsc : scan h t fuel cur k = .found a idx) :
    ∃ xs c ys, cs = xs ++ c :: ys ∧ c.1 = a ∧
      (∀ d ∈ xs, ifaceEq d.2 t = some false) ∧ ifaceEq c.2 t = some true ∧
      idx = k + xs.length ∧ xs.length < fuel := by
  induction cs generalizing p cur fuel k with
  | nil =>
    have := (seg_nil ..).1 hs
    subst this
    cases fuel <;> simp [scan] at hsc
  | cons d ds ih =>
    obtain ⟨hc, n, hn, _, hkey, hr⟩ := (seg_cons ..).1 hs
    subst hc
    simp only [List.length_cons] at hk
    cases fuel with
    | zero => simp [scan] at hsc
    | succ f =>
      simp only [scan, hn, hkey] at hsc
      cases hd : ifaceEq d.2 t with
      | none => simp [hd] at hsc
      | some b =>
        cases b with
        | true =>
          simp only [hd, Search.found.injEq] at hsc
          exact ⟨[], d, ds, rfl, hsc.1, by simp, hd, by simp [hsc.2], by simp⟩
        | false =>
          simp only [hd] at hsc
          rw [uadd_small (by omega)] at hsc
          obtain ⟨xs, c, ys, he, hca, hne, heq, hidx, hlen⟩ := ih hr (by omega) hsc
          refine ⟨d :: xs, c, ys, by simp [he], hca, ?_, heq, ?_, ?_⟩
          · intro e hm
            rcases List.mem_cons.1 hm with rfl | hm
            · exact hd
            · exact hne e hm
          · simp only [List.length_cons]; omega
          · simp only [List.length_cons]; omega

/-- C19. `Remove` agrees with `RemoveAt`: on a well-formed list, when
`IndexOf(k)` returns `(i, nil)`, that is when `k` is of the list's `keyType` and
occurs in it, `Remove(k)` and `RemoveAt(i)` both return with a nil error on that
list and leave states with the same head-to-tail key sequence and the same
size, both well-formed, and the key `RemoveAt(i)` returns is `k`. -/
theorem remove_agrees_removeAt (st : State) (k : Value) (fuel i : Nat) (hwf : WF st)
    (hidx : IndexOf fuel st k = .ret i none st) :
    ∃ b st1 key st2, Remove fuel st k = .ret b none st1 ∧
      RemoveAt st i = .ret key none st2 ∧ key = k ∧
      (∃ s', Models st1 s' ∧ Models st2 s' ∧ keysFrom st1 = some s' ∧
        keysFrom st2 = some s') ∧
      st1.list.size = st2.list.size ∧ WF st1 ∧ WF st2 := by
  obtain ⟨cs, hr⟩ := hwf
  have hsize : st.list.size = cs.length := hr.2.2.2.1
  unfold IndexOf at hidx
  split at hidx
  · simp at hidx
  split at hidx
  · simp at hidx
  rename_i h0 hty
  have hty2 : typeOf k = st.list.keyType := not_not.1 hty
  split at hidx
  · rename_i a idx hsc
    simp only [Outcome.ret.injEq, and_true] at hidx
    subst hidx
    obtain ⟨xs, c, ys, hcs, _, hne, heq, hix, hlen⟩ := scan_found_idx hr.1
      (by have := hr.2.2.2.2; omega) hsc
    subst hcs
    simp only [Nat.zero_add] at hix
    subst hix
    obtain ⟨st1, hrun1, hrep1, _⟩ := Remove_spec hr hty2 hne heq hlen
    obtain ⟨st2, hrun2, hrep2, _⟩ := RemoveAt_spec hr
    have hm1 : Models st1 ((xs ++ ys).map Prod.snd) := ⟨_, hrep1, rfl⟩
    have hm2 : Models st2 ((xs ++ ys).map Prod.snd) := ⟨_, hrep2, rfl⟩
    exact ⟨_, st1, c.2, st2, hrun1, hrun2, ifaceEq_true heq,
      ⟨_, hm1, hm2, hm1.keys_eq, hm2.keys_eq⟩,
      by rw [hm1.size_eq, hm2.size_eq], hm1.wf, hm2.wf⟩
  · simp at hidx
  · simp at hidx
  · simp at hidx

/-- Witness of C19: on `[0, 1, 2]`, `IndexOf(1)` returns 1, and `Remove(1)` and
`RemoveAt(1)` leave the same list. -/
theorem remove_agrees_removeAt_witness :
    WF scenario ∧ IndexOf 3 scenario (.int 1) = .ret 1 none scenario ∧
    ∃ b st1 key st2, Remove 3 scenario (.int 1) = .ret b none st1 ∧
      RemoveAt scenario 1 = .ret key none st2 ∧ key = .int 1 ∧
      st1.list.size = st2.list.size :=
  ⟨⟨scenarioCells, by decide⟩, by decide,
    let ⟨b, st1, key, st2, h1, h2, h3, _, h4, _⟩ :=
      remove_agrees_removeAt scenario (.int 1) 3 1 ⟨scenarioCells, by decide⟩ (by decide)
    ⟨b, st1, key, st2, h1, h2, h3, h4⟩⟩

/-! ## Pointer and arithmetic safety -/

/-- The links of the node of a cell: it has a predecessor node when cells come
before it, a successor node when cells come after it, and with both the
unlinking assignments follow no nil pointer. -/
theorem Represents.links {st : State} {xs ys : List Cell} {c : Cell}
    (hr : Represents st (xs ++ c :: ys)) :
    ∃ n, st.heap[c.1]? = some n ∧
      (xs ≠ [] → ∃ p pn, n.prev = some p ∧ st.heap[p]? = some pn) ∧
      (ys ≠ [] → ∃ q qn, n.next = some q ∧ st.heap[q]? = some qn) ∧
      (xs ≠ [] → ys ≠ [] → (unlink st.heap c.1).isSome = true) := by
  obtain ⟨hpre, n, hn, hp, _, hys⟩ := (seg_split ..).1 hr.1
  refine ⟨n, hn, ?_, ?_, ?_⟩
  · intro hx
    obtain ⟨zs, q, rfl⟩ := (eq_nil_or_snoc xs).resolve_left hx
    obtain ⟨_, qn, hqn, _⟩ := (seg_snoc ..).1 hpre
    rw [lastAddr_snoc] at hp
    exact ⟨q.1, qn, hp, hqn⟩
  · intro hy
    obtain ⟨d, ws, rfl⟩ := List.exists_cons_of_ne_nil hy
    obtain ⟨hd, dn, hdn, _⟩ := (seg_cons ..).1 hys
    exact ⟨d.1, dn, hd, hdn⟩
  · intro hx hy
    obtain ⟨zs, q, rfl⟩ := (eq_nil_or_snoc xs).resolve_left hx
    obtain ⟨d, ws, rfl⟩ := List.exists_cons_of_ne_nil hy
    have hr2 : Represents st (zs ++ q :: c :: d :: ws) := by simpa using hr
    obtain ⟨h2, hun, _⟩ := unlink_represents hr2
    rw [hun]
    rfl

/-- C20. Pointer and arithmetic safety on a well-formed list. For every index
`i < size`: the subtraction `size-i-1` does not underflow; the traversal of
`At`, `InsertAt` and `RemoveAt` reaches a node that exists; `At(i)` and
`RemoveAt(i)` return, and so does `InsertAt(i, x)` for every `i <= size` and key
of the list's `keyType` (no overflow of the counter assumed); when `i >= 1` the
node reached has a predecessor node (`current.prev`, used by the interior branch
of `InsertAt`), and when also `i < size-1` it has a successor node and the two
unlinking assignments of `RemoveAt` follow no nil pointer. The subtraction
`size-1` does not underflow when `size >= 1`. In `Remove`, a node found by the
search that is neither `head` nor `tail` has both neighbours, so the interior
splice follows no nil pointer. -/
theorem pointer_safety (st : State) (hwf : WF st) :
    (∀ i, i < st.list.size →
      usub (usub st.list.size i) 1 + i + 1 = st.list.size ∧
      (∃ v, At st i = .ret v none st) ∧
      (∃ v st', RemoveAt st i = .ret v none st') ∧
      ∃ c n, locate st i = some (some c) ∧ st.heap[c]? = some n ∧
        (0 < i → ∃ p pn, n.prev = some p ∧ st.heap[p]? = some pn) ∧
        (0 < i → i + 1 < st.list.size →
          (∃ q qn, n.next = some q ∧ st.heap[q]? = some qn) ∧
          (unlink st.heap c).isSome = true)) ∧
    (∀ i x, i ≤ st.list.size → typeOf x = st.list.keyType →
      st.list.size + 1 < uintMod → ∃ st', InsertAt st i x = .ret true none st') ∧
    (0 < st.list.size → usub st.list.size 1 + 1 = st.list.size) ∧
    (∀ fuel key c idx, scan st.heap key fuel st.list.head 0 = .found c idx →
      some c ≠ st.list.head → some c ≠ st.list.tail →
      ∃ n p pn q qn, st.heap[c]? = some n ∧ n.prev = some p ∧ st.heap[p]? = some pn ∧
        n.next = some q ∧ st.heap[q]? = some qn ∧ (unlink st.heap c).isSome = true) := by
  obtain ⟨cs, hr⟩ := hwf
  have hsize : st.list.size = cs.length := hr.2.2.2.1
  have hlt : st.list.size < uintMod := hr.2.2.2.2
  refine ⟨?_, ?_, ?_, ?_⟩
  · intro i hi
    have hi2 : i < cs.length := by omega
    obtain ⟨hsplit, hlen⟩ := split_at_index cs i hi2
    have hr2 : Represents st (cs.take i ++ cs[i] :: cs.drop (i + 1)) := by
      rw [← hsplit]; exact hr
    have hsub : usub (usub st.list.size i) 1 + i + 1 = st.list.size := by
      rw [usub_small (by omega) hlt, usub_small (by omega) (by omega)]
      omega
    have hat := At_spec hr2
    have hloc := locate_spec hr2
    obtain ⟨st2, hrm, _⟩ := RemoveAt_spec hr2
    rw [hlen] at hat hloc hrm
    obtain ⟨n, hn, hprev, hnext, hun⟩ := hr2.links
    have hx : 0 < i → cs.take i ≠ [] := by
      intro h0 e
      rw [e] at hlen
      simp at hlen
      omega
    have hy : i + 1 < st.list.size → cs.drop (i + 1) ≠ [] := by
      intro h1 e
      have := congrArg List.length e
      simp only [List.length_drop, List.length_nil] at this
      omega
    exact ⟨hsub, ⟨_, hat⟩, ⟨_, st2, hrm⟩, cs[i].1, n, hloc, hn,
      fun h0 => hprev (hx h0),
      fun h0 h1 => ⟨hnext (hy h1), hun (hx h0) (hy h1)⟩⟩
  · intro i x hi hty hfit
    obtain ⟨st', hrun, _⟩ := InsertAt_spec i x hr (by omega) hty (by omega)
    exact ⟨st', hrun⟩
  · intro h0
    rw [usub_small (by omega) hlt]
    omega
  · intro fuel key c idx hsc hh ht
    obtain ⟨xs, d, ys, hcs, hdc, _, _⟩ := scan_found_inv hr.1 hsc
    subst hcs
    subst hdc
    have hx : xs ≠ [] := by
      intro e
      subst e
      exact hh hr.head_eq.symm
    have hy : ys ≠ [] := by
      intro e
      subst e
      exact ht hr.tail_eq.symm
    obtain ⟨n, hn, hprev, hnext, hun⟩ := hr.links
    obtain ⟨p, pn, hp, hpn⟩ := hprev hx
    obtain ⟨q, qn, hq, hqn⟩ := hnext hy
    exact ⟨n, p, pn, q, qn, hn, hp, hpn, hq, hqn, hun hx hy⟩

/-- Witness of C20: the list `[0, 7, 1, 2]`, whose indices 1 and 2 are
interior. -/
theorem pointer_safety_witness :
    WF scenarioInserted ∧
    (∃ v, At scenarioInserted 2 = .ret v none scenarioInserted) ∧
    (∃ v st', RemoveAt scenarioInserted 1 = .ret v none st') ∧
    usub scenarioInserted.list.size 1 + 1 = scenarioInserted.list.size :=
  have hwf : WF scenarioInserted :=
    ⟨[(2, .int 0), (3, .int 7), (0, .int 1), (1, .int 2)], by decide⟩
  have h := pointer_safety scenarioInserted hwf
  ⟨hwf, (h.1 2 (by decide)).2.1, (h.1 1 (by decide)).2.2.1, h.2.2.1 (by decide)⟩

end GoList
